import Mathlib

/-!
Verification of the claw-rubber retrieval-safety pipeline.

This file gives a shallow embedding, in Lean 4, of the pure core of the
claw-rubber proxy: domain-policy evaluation (`src/lib/domain-policy.ts`),
config-time domain-list normalization (`src/config.ts`), the policy engine
(`src/services/policy.ts`), the SSRF network guard (`src/lib/network.ts`),
the content fetcher's control flow (`src/services/content-fetcher.ts`),
the obfuscation normalizer (`src/services/obfuscation-normalizer.ts`),
the typoglycemia detector (`src/services/typoglycemia.ts`), the
rate-limited queue's pacing discipline (`src/services/rate-limiter.ts`),
and the fetch pipeline's persistence behaviour
(`src/services/fetch-processing.ts`, `src/routes/web-fetch.ts`).

Effectful dependencies of the source (DNS resolution, the HTTP transport,
the headless renderer, the persistence adapter, the LLM judge, the scorer
injected into the pipeline) are embedded as explicit function parameters,
mirroring the dependency-injection hooks the source itself exposes
(`ContentFetcherDeps`, `ServerContext`).  JavaScript strings are embedded
as Lean `String` (sequences of Unicode scalar values); JavaScript bigints
as `Nat`; JavaScript numbers as `Int` or `Rat` where the code only ever
compares and adds them.

Unicode-dependent primitives of the JavaScript runtime (NFKC, full-Unicode
`toLowerCase`, script classification) are embedded exactly on the code
points this development exercises (ASCII plus the Cyrillic and Greek
letters of the source's confusable table, all of which are NFKC-invariant)
and are documented at their definitions.
-/

namespace ClawRubber

/-! ## JavaScript string primitives -/

/-- The ECMAScript WhiteSpace / LineTerminator set used by
`String.prototype.trim`: TAB, LF, VT, FF, CR, SP, NBSP, Ogham space mark,
the Zs range U+2000..U+200A, LS, PS, NNBSP, MMSP, ideographic space and
ZWNBSP. -/
def isJsWhitespace (c : Char) : Bool :=
  let n := c.toNat
  n = 0x9 || n = 0xA || n = 0xB || n = 0xC || n = 0xD || n = 0x20 ||
  n = 0xA0 || n = 0x1680 || (0x2000 ≤ n && n ≤ 0x200A) ||
  n = 0x2028 || n = 0x2029 || n = 0x202F || n = 0x205F || n = 0x3000 ||
  n = 0xFEFF

/-- ASCII lowercasing of a single character (used for the case-insensitive
regex comparisons, which under a non-`u` `/i` flag only identify ASCII
case pairs). -/
def asciiLower (c : Char) : Char :=
  if 0x41 ≤ c.toNat && c.toNat ≤ 0x5A then Char.ofNat (c.toNat + 32) else c

/-- The uppercase-to-lowercase pairs, beyond ASCII, of this
development's repertoire: the uppercase Cyrillic and Greek letters
appearing in the source's confusable table. -/
def cyrGreekLowerPairs : List (Char × Char) :=
  [('А', 'а'), ('Е', 'е'), ('О', 'о'), ('Р', 'р'), ('С', 'с'), ('У', 'у'),
   ('Х', 'х'), ('І', 'і'), ('Ј', 'ј'), ('Α', 'α'), ('Β', 'β'), ('Γ', 'γ'),
   ('Δ', 'δ'), ('Ε', 'ε'), ('Ι', 'ι'), ('Κ', 'κ'), ('Ο', 'ο'), ('Ρ', 'ρ'),
   ('Τ', 'τ'), ('Υ', 'υ'), ('Ν', 'ν')]

/-- `String.prototype.toLowerCase`, embedded on this development's
repertoire: the ASCII case pairs plus the uppercase Cyrillic and Greek
letters appearing in the source's confusable table.  On every other code
point exercised here the JavaScript function is the identity. -/
def toLowerQ (c : Char) : Char :=
  if 0x41 ≤ c.toNat && c.toNat ≤ 0x5A then Char.ofNat (c.toNat + 32)
  else (cyrGreekLowerPairs.lookup c).getD c

/-- Lowercase a character list (`String.prototype.toLowerCase`). -/
def lowerList (l : List Char) : List Char := l.map toLowerQ

/-- `String.prototype.trim`: drop JavaScript whitespace from both ends. -/
def trimList (l : List Char) : List Char :=
  ((l.dropWhile isJsWhitespace).reverse.dropWhile isJsWhitespace).reverse

/-- `.replace(/^\.+/, "")`: drop leading dots. -/
def dropLeadingDots (l : List Char) : List Char :=
  l.dropWhile (· == '.')

/-- `.replace(/\.+$/, "")`: drop trailing dots. -/
def dropTrailingDots (l : List Char) : List Char :=
  (l.reverse.dropWhile (· == '.')).reverse

/-- `.replace(/^\*\./, "")`: drop one leading `*.` if present. -/
def dropWildcard (l : List Char) : List Char :=
  match l with
  | '*' :: '.' :: rest => rest
  | other => other

/-- First-occurrence deduplication (`new Set(...)` iteration order). -/
def dedupKeepFirst (l : List String) : List String :=
  (l.foldl (fun acc item => if item ∈ acc then acc else acc ++ [item]) [])

/-- `String.prototype.split` with a non-empty separator, on character
lists: left-to-right non-overlapping occurrences of `sep` delimit
segments.  The fuel argument (always instantiated with the input length,
an upper bound on the number of steps) makes the recursion structural. -/
def splitSepFuel (sep : List Char) : Nat → List Char → List Char →
    List (List Char)
  | _, [], acc => [acc]
  | 0, l, acc => [acc ++ l]
  | fuel + 1, c :: rest, acc =>
      if sep.isPrefixOf (c :: rest) then
        acc :: splitSepFuel sep fuel ((c :: rest).drop sep.length) []
      else splitSepFuel sep fuel rest (acc ++ [c])

/-- `String.prototype.split` with a non-empty separator. -/
def splitOnSepList (sep l : List Char) : List (List Char) :=
  splitSepFuel sep l.length l []

/-- Decimal value of a digit list (`Number.parseInt(·, 10)` on an
all-digit string). -/
def digitsToNat (l : List Char) : Nat :=
  l.foldl (fun acc c => acc * 10 + (c.toNat - '0'.toNat)) 0

/-- `String.prototype.startsWith` on character lists. -/
def startsWithList (pre l : List Char) : Bool := pre.isPrefixOf l

/-- `String.prototype.endsWith` on character lists. -/
def endsWithList (suf l : List Char) : Bool := suf.isSuffixOf l

/-! ## Domain policy (`src/lib/domain-policy.ts`) -/

inductive DomainPolicyAction where
  | allowBypass
  | block
  | inspect
deriving DecidableEq, Repr

structure DomainPolicyResult where
  domain : String
  action : DomainPolicyAction
  reason : Option String := none
deriving DecidableEq, Repr

/-- `normalizeDomain`: trim, lowercase, strip leading dots, strip trailing
dots, in that order. -/
def normalizeDomain (domain : String) : String :=
  ⟨dropTrailingDots (dropLeadingDots (lowerList (trimList domain.data)))⟩

/-- `hostMatchesRule`: the normalized host equals the normalized rule or
ends with `"." ++ rule`. -/
def hostMatchesRule (host rule : String) : Bool :=
  let normalizedHost := normalizeDomain host
  let normalizedRule := normalizeDomain rule
  normalizedHost == normalizedRule ||
    endsWithList ('.' :: normalizedRule.data) normalizedHost.data

/-- `evaluateDomainPolicy`: blocklist first (first matching rule wins),
then allowlist, then `inspect`. -/
def evaluateDomainPolicy (host : String) (allowlist blocklist : List String) :
    DomainPolicyResult :=
  let domain := normalizeDomain host
  match blocklist.find? (fun blocked => hostMatchesRule domain blocked) with
  | some blocked =>
      { domain := domain
        action := .block
        reason := some ("Domain matched blocklist rule: " ++ blocked) }
  | none =>
      match allowlist.find? (fun allowed => hostMatchesRule domain allowed) with
      | some allowed =>
          { domain := domain
            action := .allowBypass
            reason := some ("Domain matched allowlist rule: " ++ allowed) }
      | none => { domain := domain, action := .inspect }

/-! ## Config-time list normalization (`src/config.ts`) -/

/-- The per-entry normalization applied by `parseDomainList` in
`src/config.ts`: trim, lowercase, strip one leading `*.`, strip trailing
dots. -/
def normalizeListEntry (item : String) : String :=
  ⟨dropTrailingDots (dropWildcard (lowerList (trimList item.data)))⟩

/-- `parseDomainList` applied to an already-split list of entries: each
entry is normalized, empty entries are dropped, and duplicates are removed
keeping the first occurrence (`new Set` iteration order). -/
def parseDomainListEntries (items : List String) : List String :=
  dedupKeepFirst (((items.map normalizeListEntry).filter
    (fun item => item.length ≠ 0)))

/-! ## Policy engine (`src/services/policy.ts`) -/

inductive JudgeLabel where
  | benign
  | suspicious
  | malicious
deriving DecidableEq, Repr

/-- The judge contract result; `confidence` is a JavaScript number in
`[0,1]`, embedded as `Rat`. -/
structure JudgeResult where
  label : JudgeLabel
  confidence : Rat
deriving DecidableEq, Repr

inductive Decision where
  | allow
  | block
deriving DecidableEq, Repr

structure PolicyDecision where
  decision : Decision
  score : Int
  flags : List String
  reason : Option String := none
  bypassed : Bool
deriving DecidableEq, Repr

/-- The fields of `AppConfig` that `decidePolicy` consults. -/
structure PolicyConfig where
  failClosed : Bool
  mediumThreshold : Int
  blockThreshold : Int
deriving DecidableEq, Repr

/-- `Number.prototype.toFixed(2)` on a rational in `[0,1]`: round to the
nearest hundredth (ties toward the larger value, as `toFixed` specifies)
and print with two decimals. -/
def toFixed2 (q : Rat) : String :=
  let n := (q * 100 + 1/2).floor
  toString (n / 100) ++ "." ++
    (if n % 100 < 10 then "0" else "") ++ toString (n % 100)

/-- String form of a judge label (template `llm_judge:${label}`). -/
def JudgeLabel.text : JudgeLabel → String
  | .benign => "benign"
  | .suspicious => "suspicious"
  | .malicious => "malicious"

/-- `decidePolicy` from `src/services/policy.ts`: domain block wins, then
allowlist bypass, then the judge verdict, then the block threshold, then
the fail-closed medium threshold, else allow. -/
def decidePolicy (config : PolicyConfig) (initialScore : Int)
    (initialFlags : List String) (domainAction : DomainPolicyAction)
    (domainReason : Option String) (judgeResult : Option JudgeResult) :
    PolicyDecision :=
  if domainAction = .block then
    { decision := .block
      score := initialScore
      flags := initialFlags ++ ["domain_blocklist"]
      reason := some (domainReason.getD "Domain is blocklisted")
      bypassed := false }
  else if domainAction = .allowBypass then
    { decision := .allow
      score := 0
      flags := ["domain_allowlist_bypass"]
      reason := domainReason
      bypassed := true }
  else
    let score := initialScore
    match judgeResult with
    | some judge =>
        let flags := initialFlags ++ ["llm_judge:" ++ judge.label.text]
        if judge.label = .malicious then
          { decision := .block
            score := score
            flags := flags
            reason := some ("LLM judge labeled malicious (" ++
              toFixed2 judge.confidence ++ ")")
            bypassed := false }
        else if judge.label = .suspicious && judge.confidence ≥ 3/4 then
          { decision := .block
            score := score
            flags := flags
            reason := some ("LLM judge labeled suspicious with confidence " ++
              toFixed2 judge.confidence)
            bypassed := false }
        else
          decideByThresholds config score flags
    | none => decideByThresholds config score initialFlags
where
  /-- The threshold tail of `decidePolicy` (the code after the judge
  branches). -/
  decideByThresholds (config : PolicyConfig) (score : Int)
      (flags : List String) : PolicyDecision :=
    if score ≥ config.blockThreshold then
      { decision := .block
        score := score
        flags := flags
        reason := some ("Rule score " ++ toString score ++
          " >= block threshold " ++ toString config.blockThreshold)
        bypassed := false }
    else if config.failClosed && score ≥ config.mediumThreshold then
      { decision := .block
        score := score
        flags := flags
        reason := some ("Fail-closed: rule score " ++ toString score ++
          " >= medium threshold " ++ toString config.mediumThreshold)
        bypassed := false }
    else
      { decision := .allow
        score := score
        flags := flags
        reason := none
        bypassed := false }

/-! ## IP parsing and the SSRF guard (`src/lib/network.ts`) -/

/-- `parseIpv4`: four dot-separated decimal parts, each a non-empty digit
string with value at most 255, folded big-endian into a 32-bit value. -/
def parseIpv4 (ip : String) : Option Nat :=
  let parts := splitOnSepList ['.'] ip.data
  if parts.length ≠ 4 then none
  else
    parts.foldl
      (fun acc part =>
        match acc with
        | none => none
        | some value =>
            if part.length = 0 || !part.all (·.isDigit) then none
            else
              let octet := digitsToNat part
              if octet > 255 then none
              else some (value <<< 8 ||| octet))
      (some 0)

/-- A part of an IPv6 address is a run of one to four hex digits
(`/^[0-9a-f]{1,4}$/i` after lowercasing). -/
def isHexQuad (part : List Char) : Bool :=
  part.length ≥ 1 && part.length ≤ 4 &&
    part.all (fun c => c.isDigit || ('a' ≤ c && c ≤ 'f'))

/-- Hex value of a (lowercased) hex-digit string. -/
def hexVal (part : List Char) : Nat :=
  part.foldl
    (fun acc c =>
      acc * 16 + (if c.isDigit then c.toNat - '0'.toNat else c.toNat - 'a'.toNat + 10))
    0

/-- `expandIpv6Parts`: each part is a non-empty hex quad, except that the
last part may be an embedded dotted IPv4 address contributing two groups. -/
def expandIpv6Parts : List (List Char) → Option (List Nat)
  | [] => some []
  | part :: rest =>
      if part.length = 0 then none
      else if part.contains '.' then
        if rest.length ≠ 0 then none
        else
          match parseIpv4 ⟨part⟩ with
          | none => none
          | some v4 => some [(v4 >>> 16) &&& 0xffff, v4 &&& 0xffff]
      else if isHexQuad part then
        match expandIpv6Parts rest with
        | none => none
        | some groups => some (hexVal part :: groups)
      else none

/-- `parseIpv6`: strip a `%zone` suffix, lowercase, split on `::` (at most
one), expand both sides, pad with zero groups to eight, and fold
big-endian into a 128-bit value. -/
def parseIpv6 (ip : String) : Option Nat :=
  let normalized : List Char :=
    lowerList ((splitOnSepList ['%'] ip.data).headD [])
  if normalized.length = 0 then none
  else
    let doubleColonParts := splitOnSepList [':', ':'] normalized
    if doubleColonParts.length > 2 then none
    else
      let leftPart := doubleColonParts.headD []
      let rightPart := (doubleColonParts.drop 1).headD []
      let leftRaw :=
        if leftPart.length ≠ 0 then splitOnSepList [':'] leftPart else []
      let rightRaw :=
        if rightPart.length ≠ 0 then splitOnSepList [':'] rightPart else []
      match expandIpv6Parts leftRaw, expandIpv6Parts rightRaw with
      | some left, some right =>
          let groups :=
            if doubleColonParts.length = 2 then
              left ++ List.replicate (8 - left.length - right.length) 0 ++ right
            else left
          if groups.length ≠ 8 then none
          else some (groups.foldl (fun value group => value <<< 16 ||| group) 0)
      | _, _ => none

/-- One decimal part of a strict IPv4 literal: one to three digits, no
leading zero, value at most 255. -/
def strictIpv4Part (s : List Char) : Bool :=
  s.length ≥ 1 && s.length ≤ 3 && s.all (·.isDigit) &&
    (s.length = 1 || s.headD '0' ≠ '0') && digitsToNat s ≤ 255

/-- `node:net`'s `isIP`, embedded: `4` for a strict dotted-quad IPv4
literal (no leading zeros), `6` for a parseable IPv6 literal without a
zone suffix, `0` otherwise. -/
def isIPq (s : String) : Nat :=
  let parts := splitOnSepList ['.'] s.data
  if parts.length = 4 && parts.all strictIpv4Part then 4
  else if !s.data.contains '%' && (parseIpv6 s).isSome then 6
  else 0

structure ParsedIp where
  family : Nat
  value : Nat
  ipv4Mapped : Option Nat
deriving DecidableEq, Repr

/-- `parseIp`: dispatch on `isIP`, and for IPv6 record the low 32 bits
when the value has the IPv4-mapped `::ffff:a.b.c.d` form. -/
def parseIp (input : String) : Option ParsedIp :=
  let family := isIPq input
  if family = 4 then
    (parseIpv4 input).map (fun v => ⟨4, v, none⟩)
  else if family = 6 then
    (parseIpv6 input).map (fun v =>
      ⟨6, v, if v >>> 32 = 0xffff then some (v &&& 0xffffffff) else none⟩)
  else none

structure CidrRange where
  family : Nat
  network : Nat
  prefixLen : Nat
  mask : Nat
deriving DecidableEq, Repr

/-- `parseCidr`: split on `/`, parse the base address with the expected
family, bound the prefix by the family's width, and build the mask.  The
source throws on malformed input; the embedding returns `none` (the fixed
CIDR literals below all parse). -/
def parseCidrQ (value : String) (expectedFamily : Nat) : Option CidrRange :=
  let parts := splitOnSepList ['/'] value.data
  let ipPart : String := ⟨parts.headD []⟩
  let prefixRaw := (parts.drop 1).headD []
  if ipPart.length = 0 || prefixRaw.length = 0 then none
  else if !prefixRaw.all (·.isDigit) then none
  else
    let p := digitsToNat prefixRaw
    match parseIp ipPart with
    | none => none
    | some parsed =>
        if parsed.family ≠ expectedFamily then none
        else
          let width := if expectedFamily = 4 then 32 else 128
          if p > width then none
          else
            let mask := if p = 0 then 0 else ((1 <<< p) - 1) <<< (width - p)
            some ⟨expectedFamily, parsed.value &&& mask, p, mask⟩

def BLOCKED_IPV4_CIDRS : List String :=
  ["0.0.0.0/8", "10.0.0.0/8", "100.64.0.0/10", "127.0.0.0/8",
   "169.254.0.0/16", "172.16.0.0/12", "192.0.0.0/24", "192.0.2.0/24",
   "192.168.0.0/16", "198.18.0.0/15", "198.51.100.0/24", "203.0.113.0/24",
   "224.0.0.0/4", "240.0.0.0/4"]

def BLOCKED_IPV6_CIDRS : List String :=
  ["::/128", "::1/128", "fc00::/7", "fe80::/10", "ff00::/8", "2001:db8::/32"]

def PARSED_IPV4_CIDRS : List CidrRange :=
  BLOCKED_IPV4_CIDRS.filterMap (parseCidrQ · 4)

def PARSED_IPV6_CIDRS : List CidrRange :=
  BLOCKED_IPV6_CIDRS.filterMap (parseCidrQ · 6)

/-- `cidrContains`: a zero prefix matches everything, otherwise compare
the masked value with the network. -/
def cidrContains (range : CidrRange) (value : Nat) : Bool :=
  if range.prefixLen = 0 then true
  else (value &&& range.mask) == range.network

/-- `isPrivateIp`: unparseable addresses count as private (fail closed);
IPv4 and IPv4-mapped IPv6 go against the IPv4 table, all other IPv6
against the IPv6 table. -/
def isPrivateIp (ip : String) : Bool :=
  match parseIp ip with
  | none => true
  | some parsed =>
      if parsed.family = 4 then
        PARSED_IPV4_CIDRS.any (fun range => cidrContains range parsed.value)
      else
        match parsed.ipv4Mapped with
        | some mapped =>
            PARSED_IPV4_CIDRS.any (fun range => cidrContains range mapped)
        | none =>
            PARSED_IPV6_CIDRS.any (fun range => cidrContains range parsed.value)

/-! ## Content fetcher control flow (`src/services/content-fetcher.ts`)

DNS resolution, the HTTP transport and the renderer are embedded as
function parameters (`resolv`, `http`, `renderer`), mirroring the
`ContentFetcherDeps` injection hooks of the source.  WHATWG URL values
are embedded as a record of protocol, host and the remaining text; the
resolution `new URL(location, current)` is performed by the transport
oracle, which returns the redirect target as an already-parsed URL. -/

inductive FetchErr where
  | nonPublicLiteral (host : String)
  | couldNotResolve (host : String)
  | resolvedNonPublic (address : String) (host : String)
  | nonHttpsUrl
  | nonHttpsRedirect
  | redirectWithoutLocation
  | badStatus (status : Nat)
  | unsupportedContentType (contentType : String)
  | bodyTooLarge
  | tooManyRedirects
  | rendererNonHttpsFinal
  | rendererFailed (message : String)
deriving DecidableEq, Repr

/-- The two `non-public host` failures of `assertPublicHost`. -/
def FetchErr.isNonPublicHost : FetchErr → Bool
  | .nonPublicLiteral _ => true
  | .resolvedNonPublic _ _ => true
  | _ => false

/-- `assertPublicHost`: an IP literal must not be private; otherwise the
host must resolve, and no resolved address may be private (the first
private one is reported). -/
def assertPublicHost (resolv : String → List String) (host : String) :
    Except FetchErr Unit :=
  if isIPq host ≠ 0 then
    if isPrivateIp host then .error (.nonPublicLiteral host) else .ok ()
  else
    match resolv host with
    | [] => .error (.couldNotResolve host)
    | addrs =>
        match addrs.find? isPrivateIp with
        | some address => .error (.resolvedNonPublic address host)
        | none => .ok ()

structure UrlM where
  protocol : String
  host : String
  tail : String := ""
deriving DecidableEq, Repr

/-- `URL.prototype.toString` on the embedded URL record. -/
def urlString (u : UrlM) : String := u.protocol ++ "//" ++ u.host ++ u.tail

/-- A transport response: status, the already-resolved redirect target (if
a `location` header is present), the `content-type` header, the byte
length of the body stream, and the decoded body. -/
structure HttpRespM where
  status : Nat
  location : Option UrlM := none
  contentType : Option String := none
  bodyBytes : Nat := 0
  body : String := ""
deriving DecidableEq, Repr

structure FetcherConfig where
  maxRedirects : Nat
  maxFetchBytes : Nat
  rendererBrowserless : Bool
  fallbackToHttp : Bool
deriving DecidableEq, Repr

def ALLOWED_CONTENT_TYPES : List String :=
  ["text/html", "text/plain", "application/xhtml+xml"]

/-- The content type of a response: the header's first `;`-separated
field, trimmed and lowercased, defaulting to `application/octet-stream`. -/
def contentTypeOf (header : Option String) : String :=
  match header with
  | none => "application/octet-stream"
  | some h => ⟨lowerList (trimList ((splitOnSepList [';'] h.data).headD []))⟩

structure HttpFetchOk where
  finalUrl : String
  contentType : String
  body : String
deriving DecidableEq, Repr

/-- `fetchViaHttp`: up to `maxRedirects + 1` hops; each hop validates the
host, follows `3xx` redirects (https only), then requires a `2xx` status,
an allowlisted content type, and a body within `maxFetchBytes`. -/
def fetchViaHttp (cfg : FetcherConfig) (resolv : String → List String)
    (http : UrlM → HttpRespM) : Nat → UrlM → Except FetchErr HttpFetchOk
  | 0, _ => .error .tooManyRedirects
  | fuel + 1, current => do
      assertPublicHost resolv current.host
      let response := http current
      if 300 ≤ response.status && response.status < 400 then
        match response.location with
        | none => .error .redirectWithoutLocation
        | some next =>
            if next.protocol ≠ "https:" then .error .nonHttpsRedirect
            else fetchViaHttp cfg resolv http fuel next
      else if !(200 ≤ response.status && response.status ≤ 299) then
        .error (.badStatus response.status)
      else
        let ct := contentTypeOf response.contentType
        if !ALLOWED_CONTENT_TYPES.contains ct then
          .error (.unsupportedContentType ct)
        else if response.bodyBytes > cfg.maxFetchBytes then
          .error .bodyTooLarge
        else
          .ok ⟨urlString current, ct, response.body⟩

/-- `resolveFinalUrl`: the same redirect walk with bodies discarded; any
non-redirect response ends the walk at the current URL. -/
def resolveFinalUrl (cfg : FetcherConfig) (resolv : String → List String)
    (http : UrlM → HttpRespM) : Nat → UrlM → Except FetchErr UrlM
  | 0, _ => .error .tooManyRedirects
  | fuel + 1, current => do
      assertPublicHost resolv current.host
      let response := http current
      if 300 ≤ response.status && response.status < 400 then
        match response.location with
        | none => .error .redirectWithoutLocation
        | some next =>
            if next.protocol ≠ "https:" then .error .nonHttpsRedirect
            else resolveFinalUrl cfg resolv http fuel next
      else
        .ok current

structure RenderOut where
  finalUrl : Option UrlM := none
  html : String
deriving DecidableEq, Repr

/-- `validateFinalUrl`: the renderer-returned (or resolved) final URL must
be https and its host must pass the SSRF guard. -/
def validateFinalUrl (resolv : String → List String) (u : UrlM) :
    Except FetchErr Unit :=
  if u.protocol ≠ "https:" then .error .rendererNonHttpsFinal
  else assertPublicHost resolv u.host

structure FetchOkResult where
  finalUrl : String
  contentType : String
  body : String
  backendUsed : String
  rendered : Bool
  fallbackUsed : Bool
deriving DecidableEq, Repr

/-- The browserless arm of `fetchPage` (the body of its `try` block):
resolve the final URL, render it, validate the renderer-returned (or
resolved) final URL. -/
def renderedFetch (cfg : FetcherConfig) (resolv : String → List String)
    (http : UrlM → HttpRespM) (renderer : UrlM → Except String RenderOut)
    (url : UrlM) : Except FetchErr FetchOkResult := do
  let resolved ← resolveFinalUrl cfg resolv http (cfg.maxRedirects + 1) url
  let rendered ← (renderer resolved).mapError .rendererFailed
  let final := rendered.finalUrl.getD resolved
  validateFinalUrl resolv final
  pure ⟨urlString final, "text/html", rendered.html, "browserless",
    true, false⟩

/-- `fetchPage`: https only; with the browserless backend, try the
rendered path, and on any failure fall back to plain HTTP when
configured; without the backend, plain HTTP directly. -/
def fetchPage (cfg : FetcherConfig) (resolv : String → List String)
    (http : UrlM → HttpRespM) (renderer : UrlM → Except String RenderOut)
    (url : UrlM) : Except FetchErr FetchOkResult :=
  if url.protocol ≠ "https:" then .error .nonHttpsUrl
  else if cfg.rendererBrowserless then
    match renderedFetch cfg resolv http renderer url with
    | .ok value => .ok value
    | .error e =>
        if !cfg.fallbackToHttp then .error e
        else
          (fetchViaHttp cfg resolv http (cfg.maxRedirects + 1) url).map
            (fun ok => ⟨ok.finalUrl, ok.contentType, ok.body, "http-fetch",
              false, true⟩)
  else
    (fetchViaHttp cfg resolv http (cfg.maxRedirects + 1) url).map
      (fun ok => ⟨ok.finalUrl, ok.contentType, ok.body, "http-fetch",
        false, false⟩)

/-! ## Fetch pipeline (`src/services/fetch-processing.ts`)

The pipeline's collaborators — the persistence adapter, the content
fetcher, the sanitizer/extractor, the injection scorer and the LLM judge —
are embedded as parameters, mirroring the `ServerContext` through which
the source receives them.  The pipeline's outcome carries the value the
route sees, the list of FetchEvents and FlaggedPayloads persisted during
the run, and whether the content fetcher was invoked. -/

inductive TraceKind where
  | searchResultFetch
  | directWebFetch
  | unknown
deriving DecidableEq, Repr

structure SearchContext where
  requestId : String
  query : String
  rank : Option Int
deriving DecidableEq, Repr

structure FetchInput where
  startedAt : Int
  eventId : String
  url : String
  domain : String
  traceKind : Option TraceKind := none
  searchContext : Option SearchContext := none
deriving DecidableEq, Repr

/-- The injection scorer's output as consumed by the pipeline (evidence
spans are persisted opaquely and are not modelled). -/
structure Scored where
  score : Int
  flags : List String
  allowSignals : List String := []
  normalizationApplied : List String := []
  obfuscationSignals : List String := []
deriving DecidableEq, Repr

structure SourceMeta where
  domain : String
  fetchBackend : String
  rendered : Bool
  fallbackUsed : Bool
  finalUrl : String
  contentType : String
deriving DecidableEq, Repr

structure BlockSafety where
  score : Int
  flags : List String
  reason : String
  normalizationApplied : List String
  obfuscationSignals : List String
deriving DecidableEq, Repr

structure AllowSafety where
  score : Int
  flags : List String
  bypassed : Bool
  normalizationApplied : List String
  obfuscationSignals : List String
deriving DecidableEq, Repr

inductive ProcessedFetch where
  | block (safety : BlockSafety) (source : Option SourceMeta)
  | allow (content : String) (truncated : Bool) (contentSummary : String)
      (safety : AllowSafety) (source : SourceMeta)
deriving DecidableEq, Repr

structure StoredFetchEvent where
  resultId : String
  url : String
  domain : String
  decision : Decision
  score : Int
  flags : List String
  reason : Option String
  blockedBy : Option String
  allowedBy : Option String
  domainAction : DomainPolicyAction
  mediumThreshold : Int
  blockThreshold : Int
  bypassed : Bool
  durationMs : Int
  traceKind : TraceKind
  searchRequestId : Option String
  searchQuery : Option String
  searchRank : Option Int
deriving DecidableEq, Repr

structure StoredFlaggedPayload where
  resultId : String
  url : String
  domain : String
  score : Int
  flags : List String
  reason : String
  content : String
deriving DecidableEq, Repr

structure PipeOutcome where
  result : Except FetchErr ProcessedFetch
  events : List StoredFetchEvent
  payloads : List StoredFlaggedPayload
  fetcherInvoked : Bool
deriving Repr

structure PipeConfig where
  policy : PolicyConfig
  llmJudgeEnabled : Bool
  blocklistDomains : List String
deriving DecidableEq, Repr

structure ExtractOut where
  content : String
  truncated : Bool
deriving DecidableEq, Repr

/-- Substring test on character lists (`String.prototype.includes`). -/
def containsSub (needle hay : List Char) : Bool :=
  hay.tails.any (fun t => needle.isPrefixOf t)

/-- `classifyBlockedBy` from `src/services/fetch-processing.ts`. -/
def classifyBlockedBy (decision : Decision) (reason : Option String)
    (flags : List String) (domainAction : DomainPolicyAction) :
    Option String :=
  if decision ≠ .block then none
  else if domainAction = .block || flags.contains "domain_blocklist" then
    some "domain-policy"
  else
    let normalizedReason := lowerList (reason.getD "").data
    if startsWithList "fail-closed:".data normalizedReason then
      some "fail-closed"
    else if startsWithList "rule score".data normalizedReason then
      some "rule-threshold"
    else if flags.any (fun flag => startsWithList "llm_judge:".data flag.data) ||
        containsSub "llm judge".data normalizedReason then
      some "llm-judge"
    else some "policy"

/-- `classifyAllowedBy` from `src/services/fetch-processing.ts`. -/
def classifyAllowedBy (decision : Decision) (bypassed : Bool)
    (allowSignals : List String) : Option String :=
  if decision ≠ .allow then none
  else if bypassed then some "domain-allowlist-bypass"
  else if allowSignals.contains "language_exception" then
    some "language-exception"
  else none

/-- `classifyTraceKind` from `src/services/fetch-processing.ts`. -/
def classifyTraceKind (traceKind : Option TraceKind)
    (searchContext : Option SearchContext) : TraceKind :=
  match traceKind with
  | some kind => if kind ≠ .unknown then kind
      else if searchContext.isSome then .searchResultFetch else kind
  | none => if searchContext.isSome then .searchResultFetch else .unknown

/-- `processFetchedPage` from `src/services/fetch-processing.ts`.

`effectiveAllowlist` stands for `ctx.db.getEffectiveAllowlist(...)`;
`fetched` for the awaited `ctx.contentFetcher.fetchPage(input.url)`
(`Except.error` embeds a thrown fetcher error, which propagates out of the
pipeline); `scorer` for `scorePromptInjection`; `judgeOracle` for the
value `ctx.llmJudge.classify` would return; `sanitize` for
`sanitizeToText(·, maxExtractedChars)`; `extract` for
`extractContent(·, outputMode, outputMaxChars)`; `summarize` for
`summarizeText`; `nowMs` for `Date.now()` at persistence time. -/
def processFetchedPage (cfg : PipeConfig) (effectiveAllowlist : List String)
    (fetched : Except FetchErr FetchOkResult) (scorer : String → Scored)
    (judgeOracle : Option JudgeResult) (sanitize : String → String)
    (extract : String → ExtractOut) (summarize : String → String)
    (nowMs : Int) (input : FetchInput) : PipeOutcome :=
  let traceKind := classifyTraceKind input.traceKind input.searchContext
  let domainPolicy :=
    evaluateDomainPolicy input.domain effectiveAllowlist cfg.blocklistDomains
  if domainPolicy.action = .block then
    let event : StoredFetchEvent :=
      { resultId := input.eventId
        url := input.url
        domain := input.domain
        decision := .block
        score := 0
        flags := ["domain_blocklist"]
        reason := some (domainPolicy.reason.getD "Domain blocked")
        blockedBy := some "domain-policy"
        allowedBy := none
        domainAction := domainPolicy.action
        mediumThreshold := cfg.policy.mediumThreshold
        blockThreshold := cfg.policy.blockThreshold
        bypassed := false
        durationMs := nowMs - input.startedAt
        traceKind := traceKind
        searchRequestId := input.searchContext.map (·.requestId)
        searchQuery := input.searchContext.map (·.query)
        searchRank := (input.searchContext.map (·.rank)).getD none }
    { result := .ok (.block
        ⟨0, ["domain_blocklist"], domainPolicy.reason.getD "Domain blocked",
          [], []⟩ none)
      events := [event]
      payloads := []
      fetcherInvoked := false }
  else
    match fetched with
    | .error e =>
        { result := .error e, events := [], payloads := [],
          fetcherInvoked := true }
    | .ok page =>
        let scoringText := sanitize page.body
        let extracted := extract page.body
        let scored :=
          if domainPolicy.action = .inspect then scorer scoringText
          else ⟨0, [], [], [], []⟩
        let shouldUseJudge :=
          cfg.llmJudgeEnabled && domainPolicy.action = .inspect &&
          scored.score ≥ cfg.policy.mediumThreshold &&
          scored.score < cfg.policy.blockThreshold
        let judge := if shouldUseJudge then judgeOracle else none
        let decision := decidePolicy cfg.policy scored.score scored.flags
          domainPolicy.action domainPolicy.reason judge
        let allowedBy := classifyAllowedBy decision.decision decision.bypassed
          scored.allowSignals
        let sourceMeta : SourceMeta :=
          ⟨input.domain, page.backendUsed, page.rendered, page.fallbackUsed,
            page.finalUrl, page.contentType⟩
        let event : StoredFetchEvent :=
          { resultId := input.eventId
            url := input.url
            domain := input.domain
            decision := decision.decision
            score := decision.score
            flags := decision.flags
            reason := decision.reason
            blockedBy := classifyBlockedBy decision.decision decision.reason
              decision.flags domainPolicy.action
            allowedBy := allowedBy
            domainAction := domainPolicy.action
            mediumThreshold := cfg.policy.mediumThreshold
            blockThreshold := cfg.policy.blockThreshold
            bypassed := decision.bypassed
            durationMs := nowMs - input.startedAt
            traceKind := traceKind
            searchRequestId := input.searchContext.map (·.requestId)
            searchQuery := input.searchContext.map (·.query)
            searchRank := (input.searchContext.map (·.rank)).getD none }
        if decision.decision = .block then
          let payload : StoredFlaggedPayload :=
            { resultId := input.eventId
              url := input.url
              domain := input.domain
              score := decision.score
              flags := decision.flags
              reason := decision.reason.getD "Blocked by policy"
              content := ⟨scoringText.data.take 30000⟩ }
          { result := .ok (.block
              ⟨decision.score, decision.flags,
                decision.reason.getD "Blocked by policy",
                scored.normalizationApplied, scored.obfuscationSignals⟩
              (some sourceMeta))
            events := [event]
            payloads := [payload]
            fetcherInvoked := true }
        else
          { result := .ok (.allow extracted.content extracted.truncated
              (summarize extracted.content)
              ⟨decision.score, decision.flags, decision.bypassed,
                scored.normalizationApplied, scored.obfuscationSignals⟩
              sourceMeta)
            events := [event]
            payloads := []
            fetcherInvoked := true }

/-- The HTTP status `handleWebFetch` (`src/routes/web-fetch.ts`) produces
from the pipeline's outcome: a thrown fetcher error is caught and mapped
to 502, a block result to 422, an allow result to 200. -/
def webFetchStatus (result : Except FetchErr ProcessedFetch) : Nat :=
  match result with
  | .error _ => 502
  | .ok (.block _ _) => 422
  | .ok (.allow _ _ _ _ _) => 200

/-- Modelled from the spec: the post-fetch domain recheck (§4.8 step 3)
of the stricter pipeline variant, whose implementation is not under
`src/` (only its test, `test/fetch-routes.test.ts`, is).  After the
fetcher returns, `finalDomain` is computed from `finalUrl` (`hostOf`
stands for host extraction from a URL string); when it differs from the
requested domain, domain policy is re-evaluated on it, and a block there
yields a block decision with reason "Redirected final URL blocked".
All other steps are those of `processFetchedPage`. -/
def processFetchedPageRecheck (cfg : PipeConfig)
    (effectiveAllowlist : List String) (hostOf : String → String)
    (fetched : Except FetchErr FetchOkResult) (scorer : String → Scored)
    (judgeOracle : Option JudgeResult) (sanitize : String → String)
    (extract : String → ExtractOut) (summarize : String → String)
    (nowMs : Int) (input : FetchInput) : PipeOutcome :=
  let traceKind := classifyTraceKind input.traceKind input.searchContext
  let domainPolicy :=
    evaluateDomainPolicy input.domain effectiveAllowlist cfg.blocklistDomains
  if domainPolicy.action = .block then
    processFetchedPage cfg effectiveAllowlist fetched scorer judgeOracle
      sanitize extract summarize nowMs input
  else
    match fetched with
    | .error e =>
        { result := .error e, events := [], payloads := [],
          fetcherInvoked := true }
    | .ok page =>
        let finalDomain := hostOf page.finalUrl
        let rechecked :=
          if finalDomain ≠ input.domain then
            evaluateDomainPolicy finalDomain effectiveAllowlist
              cfg.blocklistDomains
          else domainPolicy
        if finalDomain ≠ input.domain ∧ rechecked.action = .block then
          let event : StoredFetchEvent :=
            { resultId := input.eventId
              url := input.url
              domain := finalDomain
              decision := .block
              score := 0
              flags := ["domain_blocklist"]
              reason := some "Redirected final URL blocked"
              blockedBy := some "domain-policy"
              allowedBy := none
              domainAction := rechecked.action
              mediumThreshold := cfg.policy.mediumThreshold
              blockThreshold := cfg.policy.blockThreshold
              bypassed := false
              durationMs := nowMs - input.startedAt
              traceKind := traceKind
              searchRequestId := input.searchContext.map (·.requestId)
              searchQuery := input.searchContext.map (·.query)
              searchRank := (input.searchContext.map (·.rank)).getD none }
          { result := .ok (.block
              ⟨0, ["domain_blocklist"], "Redirected final URL blocked",
                [], []⟩
              (some ⟨input.domain, page.backendUsed, page.rendered,
                page.fallbackUsed, page.finalUrl, page.contentType⟩))
            events := [event]
            payloads := []
            fetcherInvoked := true }
        else
          processFetchedPage cfg effectiveAllowlist fetched scorer
            judgeOracle sanitize extract summarize nowMs input

/-! ## Rate-limited queue pacing (`src/services/rate-limiter.ts`)

The pump is the queue's single consumer (`isRunning` guards re-entry), so
its behaviour is a sequential loop over the queued tasks.  Time is
embedded as `Rat` milliseconds.  Each iteration reads the clock, sleeps
until `nextAvailableAt` when needed, reads the clock again for
`startedAt`, advances `nextAvailableAt`, and awaits the task.  `slack`
models the non-negative extra time between the end of the wait and the
`startedAt` read (oversleep plus scheduling delay); `dur` models the
non-negative time the awaited task takes. -/

structure PumpState where
  now : Rat
  nextAvailableAt : Rat
deriving DecidableEq, Repr

/-- `minIntervalMs = 1000 / Math.max(1, requestsPerSecond)`. -/
def minIntervalMsOf (requestsPerSecond : Rat) : Rat :=
  1000 / max 1 requestsPerSecond

/-- One iteration of `RateLimiterQueue.pump`: returns the dispatch
timestamp (`startedAt`) and the state seen by the next iteration. -/
def pumpStep (minIntervalMs : Rat) (st : PumpState) (slack dur : Rat) :
    Rat × PumpState :=
  let waitMs := st.nextAvailableAt - st.now
  let afterWait := if waitMs > 0 then st.now + waitMs else st.now
  let startedAt := afterWait + slack
  let nextAvailableAt := max st.nextAvailableAt startedAt + minIntervalMs
  (startedAt, ⟨startedAt + dur, nextAvailableAt⟩)

/-- The pump loop over the queue: tasks are shifted from the front in
submission order; each yields its label paired with its dispatch
timestamp. -/
def pumpRun (minIntervalMs : Rat) (st : PumpState) :
    List (α × Rat × Rat) → List (α × Rat)
  | [] => []
  | (label, slack, dur) :: rest =>
      let step := pumpStep minIntervalMs st slack dur
      (label, step.1) :: pumpRun minIntervalMs step.2 rest

/-! ## Typoglycemia detector (`src/services/typoglycemia.ts`) -/

def HIGH_RISK_KEYWORDS : List String :=
  ["ignore", "bypass", "override", "system", "prompt", "instruction",
   "instructions", "developer", "secret", "password", "token", "execute",
   "shell", "command", "curl", "wget", "reveal", "exfiltrate"]

/-- A lowercase ASCII letter (the `[a-z]` regex class). -/
def isLowerAlpha (c : Char) : Bool :=
  0x61 ≤ c.toNat && c.toNat ≤ 0x7A

/-- Close a pending run: the `/[a-z]{3,}/g` tokenizer only yields runs of
length at least three. -/
def closeRun (acc : List Char) : List String :=
  if acc.length ≥ 3 then [⟨acc⟩] else []

/-- `tokenize`: the maximal `[a-z]` runs of length at least three, in
order (match offsets, used only for evidence spans, are not modelled). -/
def tokenizeLowerRuns : List Char → List Char → List String
  | [], acc => closeRun acc
  | c :: rest, acc =>
      if isLowerAlpha c then tokenizeLowerRuns rest (acc ++ [c])
      else closeRun acc ++ tokenizeLowerRuns rest []

/-- Insertion of a character into a sorted list (ascending code points). -/
def insertChar (c : Char) : List Char → List Char
  | [] => [c]
  | d :: rest => if c.toNat ≤ d.toNat then c :: d :: rest
      else d :: insertChar c rest

/-- `sortCharacters`: sort the characters of a string (JavaScript's
default `Array.prototype.sort`, which on single characters is code-point
order). -/
def sortCharacters (l : List Char) : List Char :=
  l.foldr insertChar []

/-- One row of the Damerau–Levenshtein matrix (optimal string alignment
recurrence), built left to right.  `i` is the one-based row index,
`aiPrev` the previous row's character. -/
def dlNextRow (b : List Char) (prevPrev prev : List Nat) (aiPrev : Option Char)
    (ai : Char) (i : Nat) : List Nat :=
  (List.range (b.length + 1)).foldl
    (fun acc j =>
      if j = 0 then acc ++ [i]
      else
        let bj := b.getD (j - 1) ' '
        let cost := if ai = bj then 0 else 1
        let value := min (min (prev.getD j 0 + 1) (acc.getD (j - 1) 0 + 1))
          (prev.getD (j - 1) 0 + cost)
        let value :=
          if 2 ≤ i ∧ 2 ≤ j ∧ ai = b.getD (j - 2) ' ' ∧
              aiPrev = some bj then
            min value (prevPrev.getD (j - 2) 0 + cost)
          else value
        acc ++ [value])
    []

/-- `damerauLevenshtein`: the optimal-string-alignment distance computed
row by row (the source keeps the full matrix; only the two previous rows
feed the recurrence). -/
def damerauLevenshtein (a b : List Char) : Nat :=
  let row0 := List.range (b.length + 1)
  let final := a.foldl
    (fun (st : Nat × Option Char × List Nat × List Nat) ai =>
      let i := st.1 + 1
      let newRow := dlNextRow b st.2.2.1 st.2.2.2 st.2.1 ai i
      (i, some ai, st.2.2.2, newRow))
    (0, none, [], row0)
  final.2.2.2.getD b.length 0

/-- `isLikelyTypoglycemiaVariant`: first and last characters agree, and
either the sorted middles coincide or the Damerau–Levenshtein distance is
at most two. -/
def isLikelyTypoglycemiaVariant (token keyword : String) : Bool :=
  let t := token.data
  let k := keyword.data
  if t.headD ' ' ≠ k.headD ' ' || t.getLastD ' ' ≠ k.getLastD ' ' then false
  else if sortCharacters (t.drop 1).dropLast = sortCharacters (k.drop 1).dropLast then
    true
  else damerauLevenshtein t k ≤ 2

/-- The body of the keyword loop in `detectTypoglycemiaSignals`: a token
equal to the keyword, or of a different length, is skipped; a matching
variant inserts the keyword into the `Set` (first occurrence kept). -/
def typoInsert (token : String) (acc2 : List String) (keyword : String) :
    List String :=
  if token == keyword || token.length ≠ keyword.length then acc2
  else if isLikelyTypoglycemiaVariant token keyword then
    if keyword ∈ acc2 then acc2 else acc2 ++ [keyword]
  else acc2

/-- The distinct keywords matched by `detectTypoglycemiaSignals`, in the
source's `Set` insertion order (token-major, then keyword order). -/
def typoMatchedKeywords (content : String) : List String :=
  (tokenizeLowerRuns content.data []).foldl
    (fun acc token =>
      if token.length < 5 || token.length > 20 then acc
      else HIGH_RISK_KEYWORDS.foldl (typoInsert token) acc)
    []

structure SignalScore where
  score : Int
  flags : List String
deriving DecidableEq, Repr

/-- `detectTypoglycemiaSignals` (evidence spans are not modelled): with
no matches, zero; otherwise `min(3 + max(m - 1, 0), 7)` and the
high-risk flag plus one flag per matched keyword. -/
def detectTypoglycemiaSignals (content : String) : SignalScore :=
  let matched := typoMatchedKeywords content
  if matched.length = 0 then ⟨0, []⟩
  else
    { score := min (3 + max ((matched.length : Int) - 1) 0) 7
      flags := "typoglycemia_high_risk_keyword" ::
        matched.map (fun keyword => "typoglycemia_keyword:" ++ keyword) }

/-! ## Obfuscation normalizer (`src/services/obfuscation-normalizer.ts`) -/

/-- The `CONTROL_OR_INVISIBLE_RE` class: C0 controls except TAB/LF/CR,
DEL, zero-width and bidi controls, word joiner, isolate controls, BOM. -/
def isInvisibleQ (c : Char) : Bool :=
  let n := c.toNat
  n ≤ 0x8 || n = 0xB || n = 0xC || (0xE ≤ n && n ≤ 0x1F) || n = 0x7F ||
  (0x200B ≤ n && n ≤ 0x200F) || (0x202A ≤ n && n ≤ 0x202E) ||
  n = 0x2060 || (0x2066 ≤ n && n ≤ 0x2069) || n = 0xFEFF

/-- The ASCII repertoire (code points below U+0080).  On it the
JavaScript Unicode primitives modelled below — NFKC normalization,
`toLowerCase`, `fromCodePoint` — coincide exactly with their embeddings:
ASCII is NFKC-invariant and its only case pairs are the plain A–Z/a–z
ones. -/
def isAsciiQ (c : Char) : Bool := c.toNat < 0x80

/-- `String.prototype.normalize("NFKC")`, embedded as the identity.  The
embedding is exact on NFKC-invariant code points — all of ASCII, the
Cyrillic and Greek letters of the confusable table, and the invisible
controls above — but not on compatibility characters such as U+FB01
(which numeric entity decoding can introduce, and which the JavaScript
function folds to `fi`).  The idempotence theorem therefore restricts
its claim to normalized texts of ASCII characters, where the identity is
the JavaScript behaviour. -/
def nfkcQ (l : List Char) : List Char := l

/-- Case-insensitive literal replacement, fuelled: the fuel (always
instantiated with the input length, an upper bound on the number of
steps, each of which consumes at least one character) makes the recursion
structural. -/
def replaceCIFuel (p : Char) (ps rep : List Char) : Nat → List Char →
    List Char
  | _, [] => []
  | 0, l => l
  | fuel + 1, c :: rest =>
      if asciiLower c = p ∧ (rest.take ps.length).map asciiLower = ps then
        rep ++ replaceCIFuel p ps rep fuel (rest.drop ps.length)
      else
        c :: replaceCIFuel p ps rep fuel rest

/-- Case-insensitive literal replacement (`.replace(/pat/gi, rep)` for a
literal pattern `p :: ps`, lowercase): scan left to right, replace each
non-overlapping occurrence, and continue after it. -/
def replaceCI (p : Char) (ps rep : List Char) (l : List Char) : List Char :=
  replaceCIFuel p ps rep l.length l

/-- A hex digit under the `/i` flag. -/
def isHexDigitCI (c : Char) : Bool :=
  c.isDigit || ('a' ≤ c && c ≤ 'f') || ('A' ≤ c && c ≤ 'F')

/-- Value of a hex-digit list (case-insensitive). -/
def hexValCI (l : List Char) : Nat :=
  l.foldl
    (fun acc c =>
      let d := asciiLower c
      acc * 16 + (if d.isDigit then d.toNat - '0'.toNat
        else d.toNat - 'a'.toNat + 10))
    0

/-- `String.fromCodePoint`, totalized: a valid Unicode scalar value maps
to its character; surrogate code points (for which the source builds a
lone UTF-16 surrogate, unrepresentable in a Lean `String`) and values
above `0x10FFFF` (for which the source throws a `RangeError`, crashing
the normalizer) map to U+FFFD.  The replacement character survives every
later stage and is not ASCII, so texts produced through these corners
fall outside the idempotence theorem's ASCII hypothesis, and its
entity-stability hypothesis forbids any further decoding in the second
pass; no proved claim depends on the totalized corners. -/
def fromCodePointQ (n : Nat) : List Char :=
  if n < 0xD800 ∨ (0xE000 ≤ n ∧ n ≤ 0x10FFFF) then [Char.ofNat n]
  else ['�']

/-- Match `#x<hexdigits>;` (the tail of `/&#x([0-9a-f]+);/gi` after the
ampersand): returns the code value and the number of characters
consumed. -/
def matchHexEntity (l : List Char) : Option (Nat × Nat) :=
  match l with
  | '#' :: x :: rest =>
      if x = 'x' ∨ x = 'X' then
        let digits := rest.takeWhile isHexDigitCI
        if digits.length ≥ 1 then
          match rest.drop digits.length with
          | ';' :: _ => some (hexValCI digits, 2 + digits.length + 1)
          | _ => none
        else none
      else none
  | _ => none

/-- Match `#<digits>;` (the tail of `/&#(\d+);/g` after the ampersand). -/
def matchDecEntity (l : List Char) : Option (Nat × Nat) :=
  match l with
  | '#' :: rest =>
      let digits := rest.takeWhile Char.isDigit
      if digits.length ≥ 1 then
        match rest.drop digits.length with
        | ';' :: _ =>
            some (digits.foldl (fun acc c => acc * 10 + (c.toNat - '0'.toNat)) 0,
              1 + digits.length + 1)
        | _ => none
      else none
  | _ => none

/-- The numeric-entity decoding pass for `/&#x([0-9a-f]+);/gi`, fuelled
as in `replaceCIFuel`. -/
def decodeHexFuel : Nat → List Char → List Char
  | _, [] => []
  | 0, l => l
  | fuel + 1, c :: rest =>
      match (if c = '&' then matchHexEntity rest else none) with
      | some (code, used) =>
          fromCodePointQ code ++ decodeHexFuel fuel (rest.drop used)
      | none => c :: decodeHexFuel fuel rest

/-- The numeric-entity decoding pass for `/&#x([0-9a-f]+);/gi`. -/
def decodeHexEntities (l : List Char) : List Char :=
  decodeHexFuel l.length l

/-- The numeric-entity decoding pass for `/&#(\d+);/g`, fuelled as in
`replaceCIFuel`. -/
def decodeDecFuel : Nat → List Char → List Char
  | _, [] => []
  | 0, l => l
  | fuel + 1, c :: rest =>
      match (if c = '&' then matchDecEntity rest else none) with
      | some (code, used) =>
          fromCodePointQ code ++ decodeDecFuel fuel (rest.drop used)
      | none => c :: decodeDecFuel fuel rest

/-- The numeric-entity decoding pass for `/&#(\d+);/g`. -/
def decodeDecEntities (l : List Char) : List Char :=
  decodeDecFuel l.length l

/-- `decodeHtmlEntities`: the chained replacement passes, in source
order — `&nbsp;`, `&amp;`, `&lt;`, `&gt;`, `&quot;`, `&#39;`, then hex
and decimal numeric entities.  Each pass runs over the previous pass's
output, exactly as the chained `.replace` calls do. -/
def decodeHtmlEntities (l : List Char) : List Char :=
  decodeDecEntities (decodeHexEntities
    (replaceCI '&' "#39;".data "'".data
      (replaceCI '&' "quot;".data "\"".data
        (replaceCI '&' "gt;".data ">".data
          (replaceCI '&' "lt;".data "<".data
            (replaceCI '&' "amp;".data "&".data
              (replaceCI '&' "nbsp;".data " ".data l)))))))

/-- The `CONFUSABLES` table: Cyrillic and Greek code points mapped to
their Latin look-alikes. -/
def confusableMap (c : Char) : Option Char :=
  if c = 'а' then some 'a' else if c = 'А' then some 'A'
  else if c = 'е' then some 'e' else if c = 'Е' then some 'E'
  else if c = 'о' then some 'o' else if c = 'О' then some 'O'
  else if c = 'р' then some 'p' else if c = 'Р' then some 'P'
  else if c = 'с' then some 'c' else if c = 'С' then some 'C'
  else if c = 'у' then some 'y' else if c = 'У' then some 'Y'
  else if c = 'х' then some 'x' else if c = 'Х' then some 'X'
  else if c = 'і' then some 'i' else if c = 'І' then some 'I'
  else if c = 'ј' then some 'j' else if c = 'Ј' then some 'J'
  else if c = 'ԁ' then some 'd' else if c = 'ԛ' then some 'q'
  else if c = 'α' then some 'a' else if c = 'Α' then some 'A'
  else if c = 'β' then some 'b' else if c = 'Β' then some 'B'
  else if c = 'γ' then some 'y' else if c = 'Γ' then some 'Y'
  else if c = 'δ' then some 'd' else if c = 'Δ' then some 'D'
  else if c = 'ε' then some 'e' else if c = 'Ε' then some 'E'
  else if c = 'ι' then some 'i' else if c = 'Ι' then some 'I'
  else if c = 'κ' then some 'k' else if c = 'Κ' then some 'K'
  else if c = 'ο' then some 'o' else if c = 'Ο' then some 'O'
  else if c = 'ρ' then some 'p' else if c = 'Ρ' then some 'P'
  else if c = 'τ' then some 't' else if c = 'Τ' then some 'T'
  else if c = 'υ' then some 'u' else if c = 'Υ' then some 'U'
  else if c = 'ν' then some 'v' else if c = 'Ν' then some 'N'
  else none

/-- `mapConfusables`, text component: replace each known confusable by
its Latin target. -/
def mapConfusablesList (l : List Char) : List Char :=
  l.map (fun c => (confusableMap c).getD c)

/-- `mapConfusables`, `replacedCount` component. -/
def confusableReplacedCount (l : List Char) : Nat :=
  l.countP (fun c => (confusableMap c).isSome)

/-- The `[._\-:/\\|]` class of the punctuation-run regex. -/
def isPunctRunChar (c : Char) : Bool :=
  c = '.' || c = '_' || c = '-' || c = ':' || c = '/' || c = '\\' || c = '|'

/-- Emit a finished maximal run for a `{2,}`-to-one-space replacement:
runs of at least two class characters become one space, shorter runs are
kept verbatim. -/
def emitCollapsedRun (run : List Char) : List Char :=
  if run.length ≥ 2 then [' '] else run

/-- Single-pass maximal-run collapser for a character class: `run` holds
the pending class characters. -/
def collapseClassAux (cls : Char → Bool) : List Char → List Char → List Char
  | [], run => emitCollapsedRun run
  | c :: rest, run =>
      if cls c then collapseClassAux cls rest (run ++ [c])
      else emitCollapsedRun run ++ c :: collapseClassAux cls rest []

/-- `.replace(/[._\-:/\\|]{2,}/g, " ")`: each maximal run of at least two
class characters becomes one space; lone class characters stay. -/
def collapsePunctRuns (l : List Char) : List Char :=
  collapseClassAux isPunctRunChar l []

/-- An ASCII letter (the `[a-zA-Z]` class). -/
def isAsciiAlphaQ (c : Char) : Bool :=
  (0x41 ≤ c.toNat && c.toNat ≤ 0x5A) || (0x61 ≤ c.toNat && c.toNat ≤ 0x7A)

/-- Emit a finished same-letter run for `collapseRepeatedCharacters`:
runs of at least four copies become two. -/
def emitRepeatRun (run : List Char) : List Char :=
  if run.length ≥ 4 then run.take 2 else run

/-- Same-letter run collapser: `run` holds pending identical ASCII
letters. -/
def collapseRepeatsAux : List Char → List Char → List Char
  | [], run => emitRepeatRun run
  | c :: rest, run =>
      match run with
      | [] =>
          if isAsciiAlphaQ c then collapseRepeatsAux rest [c]
          else c :: collapseRepeatsAux rest []
      | r :: _ =>
          if c = r then collapseRepeatsAux rest (run ++ [c])
          else
            emitRepeatRun run ++
              (if isAsciiAlphaQ c then collapseRepeatsAux rest [c]
               else c :: collapseRepeatsAux rest [])

/-- `collapseRepeatedCharacters` (`/([a-zA-Z])\1{3,}/g` → `"$1$1"`): a
run of at least four copies of one ASCII letter becomes two copies. -/
def collapseRepeats (l : List Char) : List Char :=
  collapseRepeatsAux l []

/-- The `[ \t]` class. -/
def isSpaceTab (c : Char) : Bool := c = ' ' || c = '\t'

/-- `.replace(/[ \t]{2,}/g, " ")`. -/
def collapseSpaceTabRuns (l : List Char) : List Char :=
  collapseClassAux isSpaceTab l []

/-- Emit a finished newline run: at least three newlines become two. -/
def emitNewlineRun (run : List Char) : List Char :=
  if run.length ≥ 3 then ['\n', '\n'] else run

/-- Newline-run collapser. -/
def collapseNewlineAux : List Char → List Char → List Char
  | [], run => emitNewlineRun run
  | c :: rest, run =>
      if c = '\n' then collapseNewlineAux rest (run ++ [c])
      else emitNewlineRun run ++ c :: collapseNewlineAux rest []

/-- `.replace(/\n{3,}/g, "\n\n")`: runs of at least three newlines become
exactly two. -/
def collapseNewlineRuns (l : List Char) : List Char :=
  collapseNewlineAux l []

/-- The whole whitespace-normalization tail (`compactWhitespace`):
collapse space/tab runs, collapse newline runs, trim. -/
def compactWhitespace (l : List Char) : List Char :=
  trimList (collapseNewlineRuns (collapseSpaceTabRuns l))

/-- `\p{Script=Latin}` on this development's repertoire: ASCII letters
and the Latin-1 / Latin-Extended letter ranges.  Only ASCII Latin
letters are exercised by the claims. -/
def isLatinQ (c : Char) : Bool :=
  let n := c.toNat
  (0x41 ≤ n && n ≤ 0x5A) || (0x61 ≤ n && n ≤ 0x7A) ||
  (0xC0 ≤ n && n ≤ 0xFF && n ≠ 0xD7 && n ≠ 0xF7) ||
  (0x100 ≤ n && n ≤ 0x24F)

/-- `\p{Script=Cyrillic}` on this development's repertoire. -/
def isCyrillicQ (c : Char) : Bool :=
  let n := c.toNat
  (0x400 ≤ n && n ≤ 0x4FF) || (0x500 ≤ n && n ≤ 0x52F)

/-- `\p{Script=Greek}` on this development's repertoire. -/
def isGreekQ (c : Char) : Bool :=
  let n := c.toNat
  (0x370 ≤ n && n ≤ 0x3FF) || (0x1F00 ≤ n && n ≤ 0x1FFF)

/-- The `TOKEN_RE` class `[\p{L}\p{M}\p{N}_-]` on this development's
repertoire: the script ranges above, combining marks, ASCII digits,
underscore and hyphen. -/
def isTokenCharQ (c : Char) : Bool :=
  isLatinQ c || isCyrillicQ c || isGreekQ c ||
  (0x300 ≤ c.toNat && c.toNat ≤ 0x36F) || c.isDigit || c = '_' || c = '-'

/-- Maximal nonempty `TOKEN_RE` runs, in order. -/
def tokenRuns : List Char → List Char → List (List Char)
  | [], acc => if acc.length ≥ 1 then [acc] else []
  | c :: rest, acc =>
      if isTokenCharQ c then tokenRuns rest (acc ++ [c])
      else (if acc.length ≥ 1 then [acc] else []) ++ tokenRuns rest []

structure SuspiciousToken where
  token : String
  confusableCount : Nat
deriving DecidableEq, Repr

structure ConfusableAnalysis where
  totalTokens : Nat
  suspiciousTokens : List SuspiciousToken
deriving DecidableEq, Repr

/-- `detectConfusableMixedScriptTokens`: a token is suspicious when it
contains a Latin character and at least one confusable-table character
of Cyrillic or Greek script (offsets, used only for evidence, are not
modelled). -/
def detectConfusableMixedScriptTokens (l : List Char) : ConfusableAnalysis :=
  let runs := tokenRuns l []
  { totalTokens := runs.length
    suspiciousTokens := runs.filterMap (fun t =>
      let hasLatin := t.any isLatinQ
      let count := t.countP
        (fun c => (confusableMap c).isSome && (isCyrillicQ c || isGreekQ c))
      if hasLatin ∧ count > 0 then some ⟨⟨t⟩, count⟩ else none) }

structure NormalizationResult where
  normalizedText : String
  transformations : List String
  signalFlags : List String
  confusableAnalysis : ConfusableAnalysis × Nat
deriving DecidableEq, Repr

/-- `normalizeForSecurity`: the eight normalization steps in source
order.  The source assigns `text` only when a step changed it; since the
assignment is a no-op otherwise, the embedding applies each step's text
transformation unconditionally where the two coincide definitionally and
keeps the source's conditionals where they guard a different expression
(invisible stripping, confusable mapping).  The `confusableAnalysis`
component pairs the mixed-script token analysis with `mappedCount`. -/
def normalizeForSecurity (input : String) : NormalizationResult :=
  let t0 := input.data
  let t1 := nfkcQ t0
  let tr1 : List String := if t1 ≠ t0 then ["unicode_nfkc"] else []
  let hasInvisible := t1.any isInvisibleQ
  let t2 := if hasInvisible then t1.filter (fun c => !isInvisibleQ c) else t1
  let fl1 : List String := if hasInvisible then ["unicode_invisible_or_bidi"] else []
  let tr2 : List String := if hasInvisible then ["strip_invisible_controls"] else []
  let t3 := decodeHtmlEntities t2
  let tr3 : List String := if t3 ≠ t2 then ["decode_html_entities"] else []
  let analysis := detectConfusableMixedScriptTokens t3
  let mappedCount := confusableReplacedCount t3
  let t4 := if mappedCount > 0 then mapConfusablesList t3 else t3
  let tr4 : List String := if mappedCount > 0 then ["map_confusables"] else []
  let fl2 : List String :=
    if analysis.suspiciousTokens.length > 0 then ["confusable_mixed_script"] else []
  let t5 := collapsePunctRuns t4
  let tr5 : List String := if t5 ≠ t4 then ["collapse_punctuation_runs"] else []
  let t6 := lowerList t5
  let tr6 : List String := if t6 ≠ t5 then ["lowercase"] else []
  let t7 := collapseRepeats t6
  let tr7 : List String := if t7 ≠ t6 then ["collapse_repeated_chars"] else []
  let t8 := compactWhitespace t7
  let tr8 : List String := if t8 ≠ t7 then ["normalize_whitespace"] else []
  { normalizedText := ⟨t8⟩
    transformations :=
      dedupKeepFirst (tr1 ++ tr2 ++ tr3 ++ tr4 ++ tr5 ++ tr6 ++ tr7 ++ tr8)
    signalFlags := dedupKeepFirst (fl1 ++ fl2)
    confusableAnalysis := (analysis, mappedCount) }

/-! ## Concrete pipeline instances (used by witnesses) -/

def samplePipeCfg : PipeConfig := ⟨⟨true, 6, 10⟩, false, ["evil.example"]⟩

def sampleFetchOk : FetchOkResult :=
  ⟨"https://ok.example/", "text/html", "hello", "http-fetch", false, false⟩

def sampleScorer : String → Scored := fun _ => ⟨0, [], [], [], []⟩

def sampleSanitize : String → String := fun s => s

def sampleExtract : String → ExtractOut := fun s => ⟨s, false⟩

def sampleSummarize : String → String := fun s => s

def sampleBlockedInput : FetchInput :=
  ⟨0, "evt-1", "https://evil.example/a", "evil.example",
    some .directWebFetch, none⟩

def sampleInspectInput : FetchInput :=
  ⟨0, "evt-2", "https://ok.example/a", "ok.example",
    some .directWebFetch, none⟩

def sampleRedirectPage : FetchOkResult :=
  ⟨"https://evil.example/payload", "text/html", "x", "http-fetch", false,
    false⟩

def sampleHostOf : String → String := fun _ => "evil.example"

/-! ## Concrete fetcher instances (used by the SSRF witnesses) -/

def sampleSsrfCfg : FetcherConfig := ⟨3, 1000000, true, true⟩

def sampleSsrfCfgPlain : FetcherConfig := ⟨3, 1000000, false, false⟩

def sampleSsrfCfgNoFb : FetcherConfig := ⟨3, 1000000, true, false⟩

def sampleResolvPublic : String → List String := fun _ => ["93.184.216.34"]

def sampleResolvPrivate : String → List String := fun _ => ["10.0.0.5"]

def sampleHttpOk : UrlM → HttpRespM :=
  fun _ => ⟨200, none, some "text/html", 5, "hello"⟩

def sampleRenderFinal : UrlM := ⟨"https:", "127.0.0.1", "/admin"⟩

def sampleRendererPrivate : UrlM → Except String RenderOut :=
  fun _ => .ok ⟨some sampleRenderFinal, "<html>"⟩

def sampleStartUrl : UrlM := ⟨"https:", "safe.example", "/x"⟩

def samplePrivateUrl : UrlM := ⟨"https:", "127.0.0.1", "/"⟩

def sampleInternalUrl : UrlM := ⟨"https:", "internal.example", "/"⟩

/-! ## Run-shape checkers (verification infrastructure)

Decidable descriptions of the shapes the whitespace / punctuation /
repeat collapsers leave behind; they are used to prove which inputs the
second normalization pass leaves unchanged. -/

/-- No two adjacent characters both satisfy `cls`. -/
def noPairB (cls : Char → Bool) : List Char → Bool
  | a :: b :: rest => !(cls a && cls b) && noPairB cls (b :: rest)
  | _ => true

/-- No three adjacent newlines. -/
def noTripleNl : List Char → Bool
  | a :: b :: c :: rest =>
      !(a == '\n' && b == '\n' && c == '\n') && noTripleNl (b :: c :: rest)
  | _ => true

/-- No four adjacent copies of one ASCII letter. -/
def noQuadRun : List Char → Bool
  | a :: b :: c :: d :: rest =>
      !(isAsciiAlphaQ a && a == b && b == c && c == d) &&
        noQuadRun (b :: c :: d :: rest)
  | _ => true

/-! ## Claim-side characterizations -/

/-- The matching characterization asserted by the typoglycemia claim,
following the spec's words: same length, first and last characters agree,
and the sorted middles coincide or the Damerau–Levenshtein distance is at
most two.  (To be compared against what `detectTypoglycemiaSignals`
actually does.) -/
def typoMatchSpec (t k : String) : Bool :=
  t.length = k.length &&
  t.data.headD ' ' = k.data.headD ' ' &&
  t.data.getLastD ' ' = k.data.getLastD ' ' &&
  (sortCharacters (t.data.drop 1).dropLast =
      sortCharacters (k.data.drop 1).dropLast ||
    damerauLevenshtein t.data k.data ≤ 2)

/-- A textual IP address lying in the blocked CIDR union: it parses as an
IP, and its value — per family, with IPv4-mapped IPv6 checked against the
IPv4 table — falls inside a blocked range. -/
def inBlockedCidrUnion (ip : String) : Bool :=
  match parseIp ip with
  | none => false
  | some parsed =>
      if parsed.family = 4 then
        PARSED_IPV4_CIDRS.any (fun range => cidrContains range parsed.value)
      else
        match parsed.ipv4Mapped with
        | some mapped =>
            PARSED_IPV4_CIDRS.any (fun range => cidrContains range mapped)
        | none =>
            PARSED_IPV6_CIDRS.any (fun range => cidrContains range parsed.value)

/-! ## Helper lemmas -/

theorem charToNat_ofNat_of_lt {n : Nat} (h : n < 0xD800) :
    (Char.ofNat n).toNat = n := by
  have hv : n.isValidChar := Or.inl h
  rw [Char.ofNat, dif_pos hv]
  rfl

theorem dropWhile_eq_self_of_all_false {p : Char → Bool} {l : List Char}
    (h : ∀ c ∈ l, p c = false) : l.dropWhile p = l := by
  cases l with
  | nil => rfl
  | cons c rest =>
      simp [List.dropWhile_cons, h c (List.mem_cons_self c rest)]

theorem trimList_eq_self {l : List Char}
    (h : ∀ c ∈ l, isJsWhitespace c = false) : trimList l = l := by
  unfold trimList
  rw [dropWhile_eq_self_of_all_false h,
    dropWhile_eq_self_of_all_false (fun c hc => h c (List.mem_reverse.mp hc)),
    List.reverse_reverse]

theorem toLowerQ_eq_star {c : Char} (h : toLowerQ c = '*') : c = '*' := by
  unfold toLowerQ at h
  split_ifs at h with h1
  · exfalso
    have hrange : 0x41 ≤ c.toNat ∧ c.toNat ≤ 0x5A := by
      constructor <;> [exact Nat.le_of_ble_eq_true (by
        simpa using (Bool.and_elim_left h1));
        exact Nat.le_of_ble_eq_true (by simpa using (Bool.and_elim_right h1))]
    have : (Char.ofNat (c.toNat + 32)).toNat = c.toNat + 32 :=
      charToNat_ofNat_of_lt (by omega)
    rw [h] at this
    simp only [show ('*').toNat = 42 from rfl] at this
    omega
  · cases hlook : cyrGreekLowerPairs.lookup c with
    | none => rw [hlook] at h; exact h
    | some v =>
        exfalso
        rw [hlook] at h
        simp only [Option.getD_some] at h
        obtain ⟨l₁, l₂, hsplit, -⟩ := List.lookup_eq_some_iff.mp hlook
        have hv : (c, v) ∈ cyrGreekLowerPairs := by
          rw [hsplit]; exact List.mem_append_right _ (List.mem_cons_self _ _)
        have hall : ∀ p ∈ cyrGreekLowerPairs, p.2 ≠ '*' := by decide
        exact hall _ hv h

/-! ## Claim theorems -/

/-- C10 — Fail-closed IP parsing: whenever the internal parser returns
`none` for a string, `isPrivateIp` returns `true`, so the SSRF guard
treats any address it cannot parse as non-public. -/
theorem isPrivateIp_of_parse_failure (s : String) (h : parseIp s = none) :
    isPrivateIp s = true := by
  unfold isPrivateIp
  rw [h]

/-- Witness for C10 at the concrete non-address `"metadata.internal"`. -/
theorem isPrivateIp_of_parse_failure_witness :
    parseIp "metadata.internal" = none ∧
      isPrivateIp "metadata.internal" = true :=
  ⟨by decide, isPrivateIp_of_parse_failure "metadata.internal" (by decide)⟩

theorem decideByThresholds_monotone (config : PolicyConfig)
    (flags : List String) (s s' : Int) (hle : s ≤ s')
    (hblock :
      (decidePolicy.decideByThresholds config s flags).decision = .block) :
    (decidePolicy.decideByThresholds config s' flags).decision = .block := by
  by_cases hB' : config.blockThreshold ≤ s'
  · unfold decidePolicy.decideByThresholds
    rw [if_pos (by simpa using hB')]
  · have hB : ¬ config.blockThreshold ≤ s := fun h => hB' (h.trans hle)
    by_cases hM' : config.failClosed = true ∧ config.mediumThreshold ≤ s'
    · unfold decidePolicy.decideByThresholds
      rw [if_neg (by simpa using hB'),
        if_pos (by simp [hM'.1, hM'.2])]
    · exfalso
      have hM : ¬ (config.failClosed = true ∧ config.mediumThreshold ≤ s) :=
        fun hand => hM' ⟨hand.1, hand.2.trans hle⟩
      unfold decidePolicy.decideByThresholds at hblock
      rw [if_neg (by simpa using hB),
        if_neg (by simpa [Bool.and_eq_true, decide_eq_true_eq] using hM)]
        at hblock
      simp at hblock

/-- C4 — Fail-closed monotonicity: for a config with `failClosed = true`
and fixed flags, domain action, domain reason and judge result, if
`decidePolicy` blocks at score `s` it also blocks at every score
`s' ≥ s`. -/
theorem decidePolicy_failClosed_monotone (config : PolicyConfig)
    (hfc : config.failClosed = true) (flags : List String)
    (domainAction : DomainPolicyAction) (domainReason : Option String)
    (judgeResult : Option JudgeResult) (s s' : Int) (hle : s ≤ s')
    (hblock :
      (decidePolicy config s flags domainAction domainReason
        judgeResult).decision = .block) :
    (decidePolicy config s' flags domainAction domainReason
      judgeResult).decision = .block := by
  unfold decidePolicy at hblock ⊢
  by_cases h1 : domainAction = .block
  · rw [if_pos h1]
  · rw [if_neg h1] at hblock ⊢
    by_cases h2 : domainAction = .allowBypass
    · rw [if_pos h2] at hblock
      simp at hblock
    · rw [if_neg h2] at hblock ⊢
      cases judgeResult with
      | none =>
          exact decideByThresholds_monotone config flags s s' hle hblock
      | some judge =>
          simp only at hblock ⊢
          split_ifs at hblock ⊢ with j1 j2 <;> try rfl
          exact decideByThresholds_monotone config _ s s' hle hblock

/-- Witness for C4 under the strict profile: a fail-closed block at
score 6 and the monotone consequence at score 9. -/
theorem decidePolicy_failClosed_monotone_witness :
    (decidePolicy ⟨true, 6, 10⟩ 6 [] .inspect none none).decision = .block ∧
      (decidePolicy ⟨true, 6, 10⟩ 9 [] .inspect none none).decision = .block :=
  ⟨by decide,
    decidePolicy_failClosed_monotone ⟨true, 6, 10⟩ rfl [] .inspect none none
      6 9 (by decide) (by decide)⟩

/-- C3 — Absolute blocklist precedence: for a host `H` already in the
evaluator's normalized form, a blocklist match yields `block` with reason
`Domain matched blocklist rule: <rule>` regardless of the allowlist;
otherwise an allowlist match yields `allow-bypass`; otherwise the action
is `inspect`. -/
theorem evaluateDomainPolicy_precedence (H : String) (A B : List String)
    (hH : normalizeDomain H = H) :
    ((∃ b ∈ B, hostMatchesRule H b = true) →
      (evaluateDomainPolicy H A B).action = .block ∧
      ∃ b0 ∈ B, hostMatchesRule H b0 = true ∧
        (evaluateDomainPolicy H A B).reason =
          some ("Domain matched blocklist rule: " ++ b0)) ∧
    ((∀ b ∈ B, hostMatchesRule H b = false) →
      (∃ a ∈ A, hostMatchesRule H a = true) →
      (evaluateDomainPolicy H A B).action = .allowBypass) ∧
    ((∀ b ∈ B, hostMatchesRule H b = false) →
      (∀ a ∈ A, hostMatchesRule H a = false) →
      (evaluateDomainPolicy H A B).action = .inspect) := by
  simp only [evaluateDomainPolicy, hH]
  refine ⟨?_, ?_, ?_⟩
  · rintro ⟨b, hb, hmatch⟩
    cases hfind : B.find? (fun blocked => hostMatchesRule H blocked) with
    | none =>
        exact absurd hmatch (by simpa using List.find?_eq_none.mp hfind b hb)
    | some b0 =>
        simp only [hfind]
        exact ⟨by trivial, b0, List.mem_of_find?_eq_some hfind,
          List.find?_some hfind, by trivial⟩
  · rintro hnone ⟨a, ha, hmatch⟩
    rw [List.find?_eq_none.mpr (fun x hx => by simp [hnone x hx])]
    cases hfinda : A.find? (fun allowed => hostMatchesRule H allowed) with
    | none =>
        exact absurd hmatch (by simpa using List.find?_eq_none.mp hfinda a ha)
    | some a0 => simp [hfinda]
  · intro hnoneB hnoneA
    rw [List.find?_eq_none.mpr (fun x hx => by simp [hnoneB x hx]),
      List.find?_eq_none.mpr (fun x hx => by simp [hnoneA x hx])]

/-- Witness for C3 at the spec's scenario 6: `docs.example.com` with
`allow=[example.com]`, `block=[docs.example.com]` is blocked with the
blocklist reason, despite the allowlist matching. -/
theorem evaluateDomainPolicy_precedence_witness :
    normalizeDomain "docs.example.com" = "docs.example.com" ∧
      hostMatchesRule "docs.example.com" "example.com" = true ∧
      (evaluateDomainPolicy "docs.example.com" ["example.com"]
          ["docs.example.com"]).action = .block ∧
      ∃ b0 ∈ ["docs.example.com"], hostMatchesRule "docs.example.com" b0 = true ∧
        (evaluateDomainPolicy "docs.example.com" ["example.com"]
            ["docs.example.com"]).reason =
          some ("Domain matched blocklist rule: " ++ b0) :=
  ⟨by decide, by decide,
    (evaluateDomainPolicy_precedence "docs.example.com" ["example.com"]
        ["docs.example.com"] (by decide)).1
      ⟨"docs.example.com", by decide, by decide⟩⟩

/-- C9 — Wildcard rule normalization: for a domain `R` (no `*`, no
whitespace), the config-time entry normalization sends `*.R` and `R` to
the same normalized rule, so a rule written `*.R` matches exactly the
hosts the bare rule `R` matches. -/
theorem normalizeListEntry_wildcard (R : String)
    (hstar : ∀ c ∈ R.data, c ≠ '*')
    (hws : ∀ c ∈ R.data, isJsWhitespace c = false) :
    normalizeListEntry ("*." ++ R) = normalizeListEntry R ∧
    ∀ H, hostMatchesRule H (normalizeListEntry ("*." ++ R)) =
      hostMatchesRule H (normalizeListEntry R) := by
  have hdata : ("*." ++ R).data = '*' :: '.' :: R.data := by
    rw [String.data_append]
    rfl
  have htrimL : trimList ('*' :: '.' :: R.data) = '*' :: '.' :: R.data := by
    apply trimList_eq_self
    intro c hc
    rcases hc with _ | ⟨_, hc⟩
    · decide
    · rcases hc with _ | ⟨_, hc⟩
      · decide
      · exact hws c hc
  have htrimR : trimList R.data = R.data := trimList_eq_self hws
  have hlow : lowerList ('*' :: '.' :: R.data) =
      '*' :: '.' :: lowerList R.data := by
    simp only [lowerList, List.map_cons]
    rfl
  have hdropR : dropWildcard (lowerList R.data) = lowerList R.data := by
    cases hl : lowerList R.data with
    | nil => rfl
    | cons c cs =>
        unfold dropWildcard
        split
        · rename_i rest heq
          exfalso
          cases hd : R.data with
          | nil => rw [hd] at hl; simp [lowerList] at hl
          | cons d ds =>
              rw [hd] at hl
              simp only [lowerList, List.map_cons] at hl
              injection hl with h1 h2
              injection heq with h3 h4
              exact hstar d (by rw [hd]; exact List.mem_cons_self d ds)
                (toLowerQ_eq_star (h1.trans h3))
        · rfl
  have hfirst : normalizeListEntry ("*." ++ R) = normalizeListEntry R := by
    unfold normalizeListEntry
    rw [hdata, htrimL, hlow, htrimR]
    rw [show dropWildcard ('*' :: '.' :: lowerList R.data) = lowerList R.data
      from rfl, hdropR]
  exact ⟨hfirst, fun H => by rw [hfirst]⟩


/-- Witness for C9 at `R = "example.com"` and host `docs.example.com`. -/
theorem normalizeListEntry_wildcard_witness :
    (∀ c ∈ "example.com".data, c ≠ '*') ∧
    normalizeListEntry ("*." ++ "example.com") =
      normalizeListEntry "example.com" ∧
    hostMatchesRule "docs.example.com"
        (normalizeListEntry ("*." ++ "example.com")) =
      hostMatchesRule "docs.example.com" (normalizeListEntry "example.com") :=
  ⟨by decide,
    (normalizeListEntry_wildcard "example.com" (by decide) (by decide)).1,
    (normalizeListEntry_wildcard "example.com" (by decide) (by decide)).2
      "docs.example.com"⟩

theorem pumpStep_dispatch_ge (mi : Rat) (st : PumpState) (slack dur : Rat)
    (hs : 0 ≤ slack) :
    st.nextAvailableAt ≤ (pumpStep mi st slack dur).1 := by
  unfold pumpStep
  dsimp only
  split_ifs with h
  · have : st.now + (st.nextAvailableAt - st.now) = st.nextAvailableAt := by
      ring
    rw [this]
    linarith
  · push_neg at h
    have : st.nextAvailableAt ≤ st.now := by linarith
    linarith

theorem pumpStep_next_ge (mi : Rat) (st : PumpState) (slack dur : Rat) :
    (pumpStep mi st slack dur).1 + mi ≤
      (pumpStep mi st slack dur).2.nextAvailableAt := by
  unfold pumpStep
  dsimp only
  have := le_max_right st.nextAvailableAt
    ((if st.nextAvailableAt - st.now > 0 then
        st.now + (st.nextAvailableAt - st.now) else st.now) + slack)
  linarith

theorem pumpRun_chain_aux {α : Type} (mi : Rat) (tasks : List (α × Rat × Rat)) :
    ∀ st : PumpState,
    (∀ t ∈ tasks, 0 ≤ t.2.1) →
    List.Chain' (fun a b => a.2 + mi ≤ b.2) (pumpRun mi st tasks) ∧
    (∀ first ∈ (pumpRun mi st tasks).head?, st.nextAvailableAt ≤ first.2) := by
  induction tasks with
  | nil => intro st h; simp [pumpRun]
  | cons t rest ih =>
      intro st h
      obtain ⟨label, slack, dur⟩ := t
      have hs : 0 ≤ slack := h _ (List.mem_cons_self _ _)
      have hrest : ∀ t ∈ rest, 0 ≤ t.2.1 :=
        fun t ht => h t (List.mem_cons_of_mem _ ht)
      have ihst := ih (pumpStep mi st slack dur).2 hrest
      simp only [pumpRun]
      constructor
      · refine List.chain'_cons'.mpr ⟨?_, ihst.1⟩
        intro b hb
        have h1 := ihst.2 b hb
        have h2 := pumpStep_next_ge mi st slack dur
        dsimp only at h1 h2 ⊢
        linarith
      · intro first hfirst
        simp only [List.head?_cons, Option.mem_def, Option.some.injEq]
          at hfirst
        rw [← hfirst]
        exact pumpStep_dispatch_ge mi st slack dur hs


theorem pumpRun_labels {α : Type} (mi : Rat) (tasks : List (α × Rat × Rat)) :
    ∀ st : PumpState,
    (pumpRun mi st tasks).map Prod.fst = tasks.map Prod.fst := by
  induction tasks with
  | nil => intro st; rfl
  | cons t rest ih =>
      intro st
      obtain ⟨label, slack, dur⟩ := t
      simp only [pumpRun, List.map_cons, ih]

/-- C7 — Rate-limited queue pacing and FIFO: the pump dispatches queued
tasks in submission order, and with `rps = 1` (minimum interval
`1000/max(1,rps)` ms) any two consecutive dispatch timestamps are at
least 1000 ms apart, for every start state and all non-negative
wait-slack and task durations. -/
theorem pumpRun_fifo_paced {α : Type} (tasks : List (α × Rat × Rat))
    (st : PumpState) (hslack : ∀ t ∈ tasks, 0 ≤ t.2.1) :
    (pumpRun (minIntervalMsOf 1) st tasks).map Prod.fst =
      tasks.map Prod.fst ∧
    List.Chain' (fun a b => a.2 + 1000 ≤ b.2)
      (pumpRun (minIntervalMsOf 1) st tasks) := by
  have hmi : minIntervalMsOf 1 = 1000 := by norm_num [minIntervalMsOf]
  refine ⟨pumpRun_labels _ tasks st, ?_⟩
  have := (pumpRun_chain_aux (minIntervalMsOf 1) tasks st hslack).1
  rw [hmi] at this
  rw [hmi]
  exact this

/-- Witness for C7: two queued tasks from a fresh state dispatch in
order at times 0 and 1000. -/
theorem pumpRun_fifo_paced_witness :
    (pumpRun (minIntervalMsOf 1) ⟨0, 0⟩
        [("q1", (0 : Rat), (200 : Rat)), ("q2", 0, 0)]).map Prod.fst =
      [("q1", (0 : Rat), (200 : Rat)), ("q2", 0, 0)].map Prod.fst ∧
    List.Chain' (fun a b => a.2 + 1000 ≤ b.2)
      (pumpRun (minIntervalMsOf 1) ⟨0, 0⟩
        [("q1", (0 : Rat), (200 : Rat)), ("q2", 0, 0)]) :=
  pumpRun_fifo_paced [("q1", 0, 200), ("q2", 0, 0)] ⟨0, 0⟩
    (by intro t ht; fin_cases ht <;> norm_num)

/-- C8 — FetchEvent persistence asymmetry: a domain-policy block persists
exactly one FetchEvent (decision `block`, score 0, flags
`[domain_blocklist]`, `blockedBy = domain-policy`) and returns a block
response without invoking the content fetcher; a thrown fetcher error
persists no FetchEvent and no FlaggedPayload and surfaces from the
web-fetch route as a 502. -/
theorem processFetchedPage_asymmetry
    (cfg : PipeConfig) (effectiveAllowlist : List String)
    (fetched : Except FetchErr FetchOkResult) (scorer : String → Scored)
    (judgeOracle : Option JudgeResult) (sanitize : String → String)
    (extract : String → ExtractOut) (summarize : String → String)
    (nowMs : Int) (input : FetchInput) :
    ((evaluateDomainPolicy input.domain effectiveAllowlist
        cfg.blocklistDomains).action = .block →
      (processFetchedPage cfg effectiveAllowlist fetched scorer judgeOracle
          sanitize extract summarize nowMs input).fetcherInvoked = false ∧
      (∃ e, (processFetchedPage cfg effectiveAllowlist fetched scorer
          judgeOracle sanitize extract summarize nowMs input).events = [e] ∧
        e.decision = .block ∧ e.score = 0 ∧
        e.flags = ["domain_blocklist"] ∧
        e.blockedBy = some "domain-policy") ∧
      (∃ safety, (processFetchedPage cfg effectiveAllowlist fetched scorer
          judgeOracle sanitize extract summarize nowMs input).result =
        .ok (.block safety none))) ∧
    ((evaluateDomainPolicy input.domain effectiveAllowlist
        cfg.blocklistDomains).action ≠ .block →
      ∀ err, fetched = .error err →
      (processFetchedPage cfg effectiveAllowlist fetched scorer judgeOracle
          sanitize extract summarize nowMs input).events = [] ∧
      (processFetchedPage cfg effectiveAllowlist fetched scorer judgeOracle
          sanitize extract summarize nowMs input).payloads = [] ∧
      (processFetchedPage cfg effectiveAllowlist fetched scorer judgeOracle
          sanitize extract summarize nowMs input).result = .error err ∧
      (processFetchedPage cfg effectiveAllowlist fetched scorer judgeOracle
          sanitize extract summarize nowMs input).fetcherInvoked = true ∧
      webFetchStatus (processFetchedPage cfg effectiveAllowlist fetched
          scorer judgeOracle sanitize extract summarize nowMs input).result =
        502) := by
  constructor
  · intro h
    simp only [processFetchedPage, h, if_true]
    refine ⟨by trivial, ⟨_, by trivial, by trivial, by trivial, by trivial,
      by trivial⟩, ⟨_, by trivial⟩⟩
  · intro h err herr
    simp only [processFetchedPage, herr]
    rw [if_neg h]
    exact ⟨rfl, rfl, rfl, rfl, rfl⟩


/-- Witness for C8: a blocklisted domain (first part) and a fetcher error
on an inspected domain (second part), at concrete pipeline inputs. -/
theorem processFetchedPage_asymmetry_witness :
    ((processFetchedPage samplePipeCfg [] (.ok sampleFetchOk) sampleScorer
        none sampleSanitize sampleExtract sampleSummarize 5
        sampleBlockedInput).fetcherInvoked = false ∧
      (∃ e, (processFetchedPage samplePipeCfg [] (.ok sampleFetchOk)
          sampleScorer none sampleSanitize sampleExtract sampleSummarize 5
          sampleBlockedInput).events = [e] ∧
        e.decision = .block ∧ e.score = 0 ∧
        e.flags = ["domain_blocklist"] ∧
        e.blockedBy = some "domain-policy") ∧
      (∃ safety, (processFetchedPage samplePipeCfg [] (.ok sampleFetchOk)
          sampleScorer none sampleSanitize sampleExtract sampleSummarize 5
          sampleBlockedInput).result = .ok (.block safety none))) ∧
    ((processFetchedPage samplePipeCfg [] (.error .tooManyRedirects)
        sampleScorer none sampleSanitize sampleExtract sampleSummarize 5
        sampleInspectInput).events = [] ∧
      (processFetchedPage samplePipeCfg [] (.error .tooManyRedirects)
          sampleScorer none sampleSanitize sampleExtract sampleSummarize 5
          sampleInspectInput).payloads = [] ∧
      (processFetchedPage samplePipeCfg [] (.error .tooManyRedirects)
          sampleScorer none sampleSanitize sampleExtract sampleSummarize 5
          sampleInspectInput).result = .error .tooManyRedirects ∧
      (processFetchedPage samplePipeCfg [] (.error .tooManyRedirects)
          sampleScorer none sampleSanitize sampleExtract sampleSummarize 5
          sampleInspectInput).fetcherInvoked = true ∧
      webFetchStatus (processFetchedPage samplePipeCfg []
          (.error .tooManyRedirects) sampleScorer none sampleSanitize
          sampleExtract sampleSummarize 5 sampleInspectInput).result =
        502) :=
  ⟨(processFetchedPage_asymmetry samplePipeCfg [] (.ok sampleFetchOk)
      sampleScorer none sampleSanitize sampleExtract sampleSummarize 5
      sampleBlockedInput).1 (by decide),
    (processFetchedPage_asymmetry samplePipeCfg []
      (.error .tooManyRedirects) sampleScorer none sampleSanitize
      sampleExtract sampleSummarize 5 sampleInspectInput).2 (by decide)
      .tooManyRedirects rfl⟩

/-- C2 — Post-fetch domain recheck (spec-modelled: the stricter pipeline
variant's implementation is not under `src/`): when the fetcher's final
URL has a domain different from the requested one and re-evaluating
domain policy on it blocks, the pipeline returns a block decision, and
persists a FetchEvent, with reason "Redirected final URL blocked". -/
theorem recheck_redirect_block
    (cfg : PipeConfig) (effectiveAllowlist : List String)
    (hostOf : String → String) (page : FetchOkResult)
    (scorer : String → Scored) (judgeOracle : Option JudgeResult)
    (sanitize : String → String) (extract : String → ExtractOut)
    (summarize : String → String) (nowMs : Int) (input : FetchInput)
    (hdp : (evaluateDomainPolicy input.domain effectiveAllowlist
      cfg.blocklistDomains).action ≠ .block)
    (hdiff : hostOf page.finalUrl ≠ input.domain)
    (hblock : (evaluateDomainPolicy (hostOf page.finalUrl)
      effectiveAllowlist cfg.blocklistDomains).action = .block) :
    (∃ src, (processFetchedPageRecheck cfg effectiveAllowlist hostOf
        (.ok page) scorer judgeOracle sanitize extract summarize nowMs
        input).result =
      .ok (.block ⟨0, ["domain_blocklist"], "Redirected final URL blocked",
        [], []⟩ src)) ∧
    (∃ e, (processFetchedPageRecheck cfg effectiveAllowlist hostOf
        (.ok page) scorer judgeOracle sanitize extract summarize nowMs
        input).events = [e] ∧
      e.decision = .block ∧
      e.reason = some "Redirected final URL blocked") := by
  simp only [processFetchedPageRecheck, hdp, hdiff, hblock, ne_eq,
    not_false_eq_true, and_self, if_true, if_false]
  exact ⟨⟨_, rfl⟩, ⟨_, rfl, rfl, rfl⟩⟩


/-- Witness for C2 at the spec's scenario 7: requested domain
`ok.example`, final URL on `evil.example`, blocklist `[evil.example]`. -/
theorem recheck_redirect_block_witness :
    (∃ src, (processFetchedPageRecheck samplePipeCfg [] sampleHostOf
        (.ok sampleRedirectPage) sampleScorer none sampleSanitize
        sampleExtract sampleSummarize 5 sampleInspectInput).result =
      .ok (.block ⟨0, ["domain_blocklist"], "Redirected final URL blocked",
        [], []⟩ src)) ∧
    (∃ e, (processFetchedPageRecheck samplePipeCfg [] sampleHostOf
        (.ok sampleRedirectPage) sampleScorer none sampleSanitize
        sampleExtract sampleSummarize 5 sampleInspectInput).events = [e] ∧
      e.decision = .block ∧
      e.reason = some "Redirected final URL blocked") :=
  recheck_redirect_block samplePipeCfg [] sampleHostOf sampleRedirectPage
    sampleScorer none sampleSanitize sampleExtract sampleSummarize 5
    sampleInspectInput (by decide) (by decide) (by decide)


theorem typoInsert_mem (token : String) (acc : List String)
    (kw k : String) :
    k ∈ typoInsert token acc kw ↔
    (k ∈ acc ∨ (k = kw ∧ token ≠ kw ∧ token.length = kw.length ∧
      isLikelyTypoglycemiaVariant token kw = true)) := by
  unfold typoInsert
  split_ifs with h1 h2 h3 <;>
    simp_all [List.mem_append, beq_iff_eq] <;> tauto

theorem typoInnerFold_mem (token : String) (kws : List String)
    (acc : List String) (k : String) :
    k ∈ kws.foldl (typoInsert token) acc ↔
    (k ∈ acc ∨ (k ∈ kws ∧ token ≠ k ∧ token.length = k.length ∧
      isLikelyTypoglycemiaVariant token k = true)) := by
  induction kws generalizing acc with
  | nil => simp
  | cons kw rest ih =>
      rw [List.foldl_cons, ih, typoInsert_mem]
      constructor
      · rintro ((hacc | ⟨rfl, hne, hlen, hvar⟩) | ⟨hmem, hne, hlen, hvar⟩)
        · exact Or.inl hacc
        · exact Or.inr ⟨List.mem_cons_self _ _, hne, hlen, hvar⟩
        · exact Or.inr ⟨List.mem_cons_of_mem _ hmem, hne, hlen, hvar⟩
      · rintro (hacc | ⟨hmem, hne, hlen, hvar⟩)
        · exact Or.inl (Or.inl hacc)
        · rcases List.mem_cons.mp hmem with rfl | hmem'
          · exact Or.inl (Or.inr ⟨rfl, hne, hlen, hvar⟩)
          · exact Or.inr ⟨hmem', hne, hlen, hvar⟩

theorem typoOuterFold_mem (tokens : List String) (acc : List String)
    (k : String) :
    k ∈ tokens.foldl
      (fun acc token =>
        if token.length < 5 || token.length > 20 then acc
        else HIGH_RISK_KEYWORDS.foldl (typoInsert token) acc)
      acc ↔
    (k ∈ acc ∨ ∃ t ∈ tokens, 5 ≤ t.length ∧ t.length ≤ 20 ∧
      k ∈ HIGH_RISK_KEYWORDS ∧ t ≠ k ∧ t.length = k.length ∧
      isLikelyTypoglycemiaVariant t k = true) := by
  induction tokens generalizing acc with
  | nil => simp
  | cons t rest ih =>
      rw [List.foldl_cons]
      by_cases h : t.length < 5 || t.length > 20
      · rw [if_pos h, ih]
        constructor
        · rintro (hacc | ⟨u, hu, rest'⟩)
          · exact Or.inl hacc
          · exact Or.inr ⟨u, List.mem_cons_of_mem _ hu, rest'⟩
        · rintro (hacc | ⟨u, hu, h5, h20, hk, hne, hlen, hvar⟩)
          · exact Or.inl hacc
          · rcases List.mem_cons.mp hu with rfl | hu'
            · exfalso
              simp only [Bool.or_eq_true, decide_eq_true_eq] at h
              omega
            · exact Or.inr ⟨u, hu', h5, h20, hk, hne, hlen, hvar⟩
      · rw [if_neg h, ih, typoInnerFold_mem]
        simp only [Bool.or_eq_true, decide_eq_true_eq, not_or, not_lt] at h
        constructor
        · rintro ((hacc | ⟨hk, hne, hlen, hvar⟩) | ⟨u, hu, rest'⟩)
          · exact Or.inl hacc
          · exact Or.inr ⟨t, List.mem_cons_self _ _, h.1, by omega, hk,
              hne, hlen, hvar⟩
          · exact Or.inr ⟨u, List.mem_cons_of_mem _ hu, rest'⟩
        · rintro (hacc | ⟨u, hu, h5, h20, hk, hne, hlen, hvar⟩)
          · exact Or.inl (Or.inl hacc)
          · rcases List.mem_cons.mp hu with rfl | hu'
            · exact Or.inl (Or.inr ⟨hk, hne, hlen, hvar⟩)
            · exact Or.inr ⟨u, hu', h5, h20, hk, hne, hlen, hvar⟩

theorem typoMatchSpec_iff (t k : String) :
    typoMatchSpec t k = true ↔
    (t.length = k.length ∧ isLikelyTypoglycemiaVariant t k = true) := by
  unfold typoMatchSpec isLikelyTypoglycemiaVariant
  by_cases h1 : t.data.headD ' ' = k.data.headD ' ' <;>
    by_cases h2 : t.data.getLastD ' ' = k.data.getLastD ' ' <;>
    by_cases h3 : sortCharacters (t.data.drop 1).dropLast =
      sortCharacters (k.data.drop 1).dropLast <;>
    (simp [h1, h2, h3]; try tauto)

theorem typoInsert_nodup (token : String) (acc : List String) (kw : String)
    (h : acc.Nodup) : (typoInsert token acc kw).Nodup := by
  unfold typoInsert
  split_ifs with h1 h2 h3 <;> simp_all [List.nodup_append]

theorem typoInnerFold_nodup (token : String) (kws acc : List String)
    (h : acc.Nodup) : (kws.foldl (typoInsert token) acc).Nodup := by
  induction kws generalizing acc with
  | nil => exact h
  | cons kw rest ih => exact ih _ (typoInsert_nodup token acc kw h)

theorem typoMatchedKeywords_nodup (content : String) :
    (typoMatchedKeywords content).Nodup := by
  unfold typoMatchedKeywords
  generalize tokenizeLowerRuns content.data [] = tokens
  suffices h : ∀ acc : List String, acc.Nodup →
      (tokens.foldl
        (fun acc token =>
          if token.length < 5 || token.length > 20 then acc
          else HIGH_RISK_KEYWORDS.foldl (typoInsert token) acc)
        acc).Nodup from h [] List.nodup_nil
  induction tokens with
  | nil => intro acc h; exact h
  | cons t rest ih =>
      intro acc h
      rw [List.foldl_cons]
      by_cases hl : t.length < 5 || t.length > 20
      · rw [if_pos hl]; exact ih acc h
      · rw [if_neg hl]; exact ih _ (typoInnerFold_nodup t _ acc h)

/-- C6 counterexample — the claim as stated fails on a token equal to the
keyword: `"system"` is a lowercase token of length 6, `system` is a
keyword of the same length, first/last characters and sorted middles
coincide (so the claim's characterization demands a match, a score of 3
and the flags), yet the detector skips `token === keyword` and returns
score 0 with no flags. -/
theorem detectTypoglycemia_exact_keyword_counterexample :
    ("system" ∈ HIGH_RISK_KEYWORDS ∧
      tokenizeLowerRuns "system".data [] = ["system"] ∧
      5 ≤ "system".length ∧ "system".length ≤ 20 ∧
      typoMatchSpec "system" "system" = true) ∧
    detectTypoglycemiaSignals "system" = ⟨0, []⟩ :=
  ⟨⟨by decide, by decide, by decide, by decide, by decide⟩, by decide⟩

/-- C6 (amended) — Typoglycemia detector: a keyword `k` is matched
exactly when some lowercase token `t` of length 5 to 20, **distinct from
`k`**, has the claim's relation to it (equal length, first and last
characters agree, sorted middles equal or Damerau–Levenshtein distance at
most 2); the matched keywords are distinct, and when at least one keyword
matches the detector adds `min(3 + max(m-1,0), 7)` and emits
`typoglycemia_high_risk_keyword` plus one `typoglycemia_keyword:<k>` flag
per matched keyword. -/
theorem detectTypoglycemia_characterization (content : String) :
    (∀ k, k ∈ typoMatchedKeywords content ↔
      (k ∈ HIGH_RISK_KEYWORDS ∧
        ∃ t ∈ tokenizeLowerRuns content.data [],
          5 ≤ t.length ∧ t.length ≤ 20 ∧ t ≠ k ∧
          typoMatchSpec t k = true)) ∧
    (typoMatchedKeywords content).Nodup ∧
    (typoMatchedKeywords content ≠ [] →
      (detectTypoglycemiaSignals content).score =
        min (3 + max (((typoMatchedKeywords content).length : Int) - 1) 0)
          7 ∧
      (detectTypoglycemiaSignals content).flags =
        "typoglycemia_high_risk_keyword" ::
          (typoMatchedKeywords content).map
            (fun k => "typoglycemia_keyword:" ++ k)) := by
  refine ⟨?_, typoMatchedKeywords_nodup content, ?_⟩
  · intro k
    rw [typoMatchedKeywords, typoOuterFold_mem]
    simp only [List.not_mem_nil, false_or]
    constructor
    · rintro ⟨t, ht, h5, h20, hk, hne, hlen, hvar⟩
      exact ⟨hk, t, ht, h5, h20, hne, (typoMatchSpec_iff t k).mpr ⟨hlen, hvar⟩⟩
    · rintro ⟨hk, t, ht, h5, h20, hne, hspec⟩
      obtain ⟨hlen, hvar⟩ := (typoMatchSpec_iff t k).mp hspec
      exact ⟨t, ht, h5, h20, hk, hne, hlen, hvar⟩
  · intro hne
    unfold detectTypoglycemiaSignals
    rw [if_neg (by simpa [List.length_eq_zero] using hne)]
    exact ⟨rfl, rfl⟩

/-- Witness for C6 at the scrambled token `"sytsem"`: one keyword
(`system`) matches, score 3 and both flags are emitted. -/
theorem detectTypoglycemia_characterization_witness :
    typoMatchedKeywords "sytsem" ≠ [] ∧
    (detectTypoglycemiaSignals "sytsem").score =
      min (3 + max (((typoMatchedKeywords "sytsem").length : Int) - 1) 0)
        7 ∧
    (detectTypoglycemiaSignals "sytsem").flags =
      "typoglycemia_high_risk_keyword" ::
        (typoMatchedKeywords "sytsem").map
          (fun k => "typoglycemia_keyword:" ++ k) :=
  ⟨by decide, (detectTypoglycemia_characterization "sytsem").2.2 (by decide)⟩

theorem inBlockedCidrUnion_isPrivateIp {ip : String}
    (h : inBlockedCidrUnion ip = true) : isPrivateIp ip = true := by
  unfold inBlockedCidrUnion at h
  unfold isPrivateIp
  cases hp : parseIp ip with
  | none => simp [hp] at h
  | some p => rw [hp] at h; exact h

theorem assertPublicHost_literal_blocked (resolv : String → List String)
    (host : String) (hip : isIPq host ≠ 0) (hpriv : isPrivateIp host = true) :
    assertPublicHost resolv host = .error (.nonPublicLiteral host) := by
  unfold assertPublicHost
  rw [if_pos hip, if_pos hpriv]

theorem assertPublicHost_resolved_blocked (resolv : String → List String)
    (host : String) (hip : isIPq host = 0) (a : String)
    (hmem : a ∈ resolv host) (hpriv : isPrivateIp a = true) :
    ∃ addr, assertPublicHost resolv host =
      .error (.resolvedNonPublic addr host) ∧ isPrivateIp addr = true := by
  unfold assertPublicHost
  rw [if_neg (by simp [hip])]
  cases hr : resolv host with
  | nil => rw [hr] at hmem; exact absurd hmem (List.not_mem_nil a)
  | cons x xs =>
      simp only [hr]
      cases hfind : (x :: xs).find? isPrivateIp with
      | none =>
          exfalso
          have h2 := List.find?_eq_none.mp hfind a (hr ▸ hmem)
          simp [hpriv] at h2
      | some addr =>
          exact ⟨addr, rfl, List.find?_some hfind⟩

theorem fetchViaHttp_assert_error (cfg : FetcherConfig)
    (resolv : String → List String) (http : UrlM → HttpRespM)
    (u : UrlM) (fuel : Nat) (e : FetchErr)
    (herr : assertPublicHost resolv u.host = .error e) :
    fetchViaHttp cfg resolv http (fuel + 1) u = .error e := by
  unfold fetchViaHttp
  rw [herr]
  rfl

theorem resolveFinalUrl_assert_error (cfg : FetcherConfig)
    (resolv : String → List String) (http : UrlM → HttpRespM)
    (u : UrlM) (fuel : Nat) (e : FetchErr)
    (herr : assertPublicHost resolv u.host = .error e) :
    resolveFinalUrl cfg resolv http (fuel + 1) u = .error e := by
  unfold resolveFinalUrl
  rw [herr]
  rfl

theorem renderedFetch_resolve_error (cfg : FetcherConfig)
    (resolv : String → List String) (http : UrlM → HttpRespM)
    (renderer : UrlM → Except String RenderOut) (u : UrlM) (e : FetchErr)
    (hres : resolveFinalUrl cfg resolv http (cfg.maxRedirects + 1) u =
      .error e) :
    renderedFetch cfg resolv http renderer u = .error e := by
  unfold renderedFetch
  rw [hres]
  rfl

theorem renderedFetch_final_blocked (cfg : FetcherConfig)
    (resolv : String → List String) (http : UrlM → HttpRespM)
    (renderer : UrlM → Except String RenderOut) (u : UrlM)
    (resolved : UrlM) (rend : RenderOut) (f : UrlM) (e : FetchErr)
    (hres : resolveFinalUrl cfg resolv http (cfg.maxRedirects + 1) u =
      .ok resolved)
    (hrend : renderer resolved = .ok rend)
    (hf : rend.finalUrl = some f)
    (hfproto : f.protocol = "https:")
    (hass : assertPublicHost resolv f.host = .error e) :
    renderedFetch cfg resolv http renderer u = .error e := by
  unfold renderedFetch
  rw [hres]
  show ((renderer resolved).mapError FetchErr.rendererFailed).bind _ = _
  rw [hrend]
  show (validateFinalUrl resolv (rend.finalUrl.getD resolved)).bind _ = _
  rw [hf]
  show (validateFinalUrl resolv f).bind _ = _
  unfold validateFinalUrl
  rw [if_neg (by simp [hfproto]), hass]
  rfl

/-- C1 counterexample — the claim as stated fails under
`fallbackToHttp = true`: the renderer returns a final URL on `127.0.0.1`
(inside the blocked union), yet `fetchPage` returns a page (fetched over
plain HTTP from the original URL) instead of failing. -/
theorem fetchPage_ssrf_fallback_counterexample :
    inBlockedCidrUnion "127.0.0.1" = true ∧
    sampleRendererPrivate sampleStartUrl =
      .ok ⟨some ⟨"https:", "127.0.0.1", "/admin"⟩, "<html>"⟩ ∧
    fetchPage sampleSsrfCfg sampleResolvPublic sampleHttpOk
        sampleRendererPrivate sampleStartUrl =
      .ok ⟨"https://safe.example/x", "text/html", "hello", "http-fetch",
        false, true⟩ :=
  ⟨by decide, by rfl, by rfl⟩

/-- C1 (amended) — SSRF closure: a URL whose host is an IP literal in the
blocked CIDR union, or whose host resolves to an address in it, makes
`fetchPage` fail with a non-public-host error in every configuration; a
renderer-returned final URL whose host is a blocked IP literal makes
`fetchPage` fail with a non-public-host error **when HTTP fallback is
disabled** (with fallback enabled the renderer path still rejects it but
the fetch transparently retries over plain HTTP from the original URL;
see the counterexample). -/
theorem fetchPage_ssrf_closure (cfg : FetcherConfig)
    (resolv : String → List String) (http : UrlM → HttpRespM)
    (renderer : UrlM → Except String RenderOut) (u : UrlM)
    (hproto : u.protocol = "https:") :
    (isIPq u.host ≠ 0 → inBlockedCidrUnion u.host = true →
      fetchPage cfg resolv http renderer u =
        .error (.nonPublicLiteral u.host)) ∧
    (isIPq u.host = 0 →
      ∀ a ∈ resolv u.host, inBlockedCidrUnion a = true →
      ∃ addr, fetchPage cfg resolv http renderer u =
        .error (.resolvedNonPublic addr u.host) ∧ isPrivateIp addr = true) ∧
    (cfg.rendererBrowserless = true → cfg.fallbackToHttp = false →
      ∀ resolved rend f,
        resolveFinalUrl cfg resolv http (cfg.maxRedirects + 1) u =
          .ok resolved →
        renderer resolved = .ok rend →
        rend.finalUrl = some f →
        f.protocol = "https:" → isIPq f.host ≠ 0 →
        inBlockedCidrUnion f.host = true →
        fetchPage cfg resolv http renderer u =
          .error (.nonPublicLiteral f.host)) := by
  refine ⟨?_, ?_, ?_⟩
  · intro hip hblocked
    have hpriv := inBlockedCidrUnion_isPrivateIp hblocked
    have herr := assertPublicHost_literal_blocked resolv u.host hip hpriv
    unfold fetchPage
    rw [if_neg (by simp [hproto])]
    by_cases hrb : cfg.rendererBrowserless
    · rw [if_pos hrb]
      rw [renderedFetch_resolve_error cfg resolv http renderer u _
        (resolveFinalUrl_assert_error cfg resolv http u _ _ herr)]
      by_cases hfb : cfg.fallbackToHttp
      · simp only [hfb, Bool.not_true, if_false]
        rw [fetchViaHttp_assert_error cfg resolv http u _ _ herr]
        rfl
      · simp only [Bool.not_eq_true] at hfb
        simp only [hfb, Bool.not_false, if_true]
    · rw [if_neg hrb]
      rw [fetchViaHttp_assert_error cfg resolv http u _ _ herr]
      rfl
  · intro hip a hmem hblocked
    have hpriv := inBlockedCidrUnion_isPrivateIp hblocked
    obtain ⟨addr, herr, haddr⟩ :=
      assertPublicHost_resolved_blocked resolv u.host hip a hmem hpriv
    refine ⟨addr, ?_, haddr⟩
    unfold fetchPage
    rw [if_neg (by simp [hproto])]
    by_cases hrb : cfg.rendererBrowserless
    · rw [if_pos hrb]
      rw [renderedFetch_resolve_error cfg resolv http renderer u _
        (resolveFinalUrl_assert_error cfg resolv http u _ _ herr)]
      by_cases hfb : cfg.fallbackToHttp
      · simp only [hfb, Bool.not_true, if_false]
        rw [fetchViaHttp_assert_error cfg resolv http u _ _ herr]
        rfl
      · simp only [Bool.not_eq_true] at hfb
        simp only [hfb, Bool.not_false, if_true]
    · rw [if_neg hrb]
      rw [fetchViaHttp_assert_error cfg resolv http u _ _ herr]
      rfl
  · intro hrb hfb resolved rend f hres hrend hf hfproto hfip hfblocked
    have hpriv := inBlockedCidrUnion_isPrivateIp hfblocked
    have hass := assertPublicHost_literal_blocked resolv f.host hfip hpriv
    unfold fetchPage
    rw [if_neg (by simp [hproto]), if_pos hrb]
    rw [renderedFetch_final_blocked cfg resolv http renderer u resolved
      rend f _ hres hrend hf hfproto hass]
    simp only [hfb, Bool.not_false, if_true]


/-- Witness for C1 at concrete inputs: a blocked IP literal host, a host
resolving to a blocked address, and a blocked renderer-returned final URL
with fallback disabled. -/
theorem fetchPage_ssrf_closure_witness :
    fetchPage sampleSsrfCfgPlain sampleResolvPublic sampleHttpOk
        sampleRendererPrivate samplePrivateUrl =
      .error (.nonPublicLiteral "127.0.0.1") ∧
    (∃ addr, fetchPage sampleSsrfCfgPlain sampleResolvPrivate sampleHttpOk
        sampleRendererPrivate sampleInternalUrl =
      .error (.resolvedNonPublic addr "internal.example") ∧
      isPrivateIp addr = true) ∧
    fetchPage sampleSsrfCfgNoFb sampleResolvPublic sampleHttpOk
        sampleRendererPrivate sampleStartUrl =
      .error (.nonPublicLiteral "127.0.0.1") :=
  ⟨(fetchPage_ssrf_closure sampleSsrfCfgPlain sampleResolvPublic
      sampleHttpOk sampleRendererPrivate samplePrivateUrl rfl).1
      (by decide) (by decide),
    (fetchPage_ssrf_closure sampleSsrfCfgPlain sampleResolvPrivate
      sampleHttpOk sampleRendererPrivate sampleInternalUrl rfl).2.1
      (by decide) "10.0.0.5" (by decide) (by decide),
    (fetchPage_ssrf_closure sampleSsrfCfgNoFb sampleResolvPublic
      sampleHttpOk sampleRendererPrivate sampleStartUrl rfl).2.2
      rfl rfl sampleStartUrl ⟨some sampleRenderFinal, "<html>"⟩
      sampleRenderFinal (by rfl) (by rfl) (by rfl) (by rfl) (by decide)
      (by decide)⟩


/-! ## Run-shape lemmas for the normalizer (C5)

The second normalization pass is analysed stage by stage: each collapser
leaves a decidable shape behind (`noPairB`, `noTripleNl`, `noQuadRun`),
each shape is preserved by the later stages (the transfer lemmas, via
contiguous-substring transfer), and each collapser fixes every list of
its own shape (the fix lemmas). -/

theorem noPairB_tail {cls : Char → Bool} {a : Char} {l : List Char}
    (h : noPairB cls (a :: l) = true) : noPairB cls l = true := by
  cases l with
  | nil => rfl
  | cons b m =>
      unfold noPairB at h
      simp only [Bool.and_eq_true] at h
      exact h.2

theorem noPairB_cons {cls : Char → Bool} (a : Char) {l : List Char}
    (h : noPairB cls l = true)
    (hh : ∀ b, l.head? = some b → (cls a && cls b) = false) :
    noPairB cls (a :: l) = true := by
  cases l with
  | nil => rfl
  | cons b m =>
      unfold noPairB
      rw [hh b rfl, h]
      rfl

theorem collapseClassAux_head (cls : Char → Bool) :
    ∀ (l run : List Char) (x : Char),
    (collapseClassAux cls l run).head? = some x →
    (x = ' ' ∨ (run ++ l).head? = some x) := by
  intro l
  induction l with
  | nil =>
      intro run x hx
      unfold collapseClassAux emitCollapsedRun at hx
      split_ifs at hx with h
      · exact Or.inl (by simpa using hx.symm)
      · cases run with
        | nil => simp at hx
        | cons r m => exact Or.inr hx
  | cons c rest ih =>
      intro run x hx
      unfold collapseClassAux at hx
      split_ifs at hx with h
      · rcases ih (run ++ [c]) x hx with h1 | h1
        · exact Or.inl h1
        · cases run with
          | nil => exact Or.inr (by simpa using h1)
          | cons r m => exact Or.inr (by simpa using h1)
      · unfold emitCollapsedRun at hx
        split_ifs at hx with h2
        · exact Or.inl (by simpa using hx.symm)
        · cases run with
          | nil => exact Or.inr hx
          | cons r m =>
              cases m with
              | nil => exact Or.inr (by simpa using hx)
              | cons r2 m2 => simp at h2

theorem noPairB_short {cls : Char → Bool} {l : List Char}
    (h : l.length ≤ 1) : noPairB cls l = true := by
  match l with
  | [] => rfl
  | [a] => rfl
  | a :: b :: m => simp at h

theorem noPairB_append_right {cls : Char → Bool} :
    ∀ {xs ys : List Char}, noPairB cls (xs ++ ys) = true →
    noPairB cls ys = true := by
  intro xs
  induction xs with
  | nil => intro ys h; exact h
  | cons x m ih => intro ys h; exact ih (noPairB_tail h)

theorem noPairB_append_left {cls : Char → Bool} :
    ∀ (xs ys : List Char), noPairB cls (xs ++ ys) = true →
    noPairB cls xs = true
  | [], _, _ => rfl
  | [a], _, _ => rfl
  | a :: b :: m, ys, h => by
      unfold noPairB at h ⊢
      simp only [List.cons_append, Bool.and_eq_true] at h ⊢
      exact ⟨h.1, noPairB_append_left (b :: m) ys h.2⟩

theorem noTripleNl_tail {a : Char} {l : List Char}
    (h : noTripleNl (a :: l) = true) : noTripleNl l = true := by
  cases l with
  | nil => rfl
  | cons b m =>
      cases m with
      | nil => rfl
      | cons c m2 =>
          unfold noTripleNl at h
          simp only [Bool.and_eq_true] at h
          exact h.2

theorem noTripleNl_short {l : List Char}
    (h : l.length ≤ 2) : noTripleNl l = true := by
  match l with
  | [] => rfl
  | [a] => rfl
  | [a, b] => rfl
  | a :: b :: c :: m => simp at h

theorem noTripleNl_append_right :
    ∀ {xs ys : List Char}, noTripleNl (xs ++ ys) = true →
    noTripleNl ys = true := by
  intro xs
  induction xs with
  | nil => intro ys h; exact h
  | cons x m ih => intro ys h; exact ih (noTripleNl_tail h)

theorem noQuadRun_tail {a : Char} {l : List Char}
    (h : noQuadRun (a :: l) = true) : noQuadRun l = true := by
  match l with
  | [] => rfl
  | [b] => rfl
  | [b, c] => rfl
  | b :: c :: d :: m =>
      unfold noQuadRun at h
      simp only [Bool.and_eq_true] at h
      exact h.2

theorem noQuadRun_short {l : List Char}
    (h : l.length ≤ 3) : noQuadRun l = true := by
  match l with
  | [] => rfl
  | [a] => rfl
  | [a, b] => rfl
  | [a, b, c] => rfl
  | a :: b :: c :: d :: m => simp at h

theorem noQuadRun_append_right :
    ∀ {xs ys : List Char}, noQuadRun (xs ++ ys) = true →
    noQuadRun ys = true := by
  intro xs
  induction xs with
  | nil => intro ys h; exact h
  | cons x m ih => intro ys h; exact ih (noQuadRun_tail h)

theorem noPairB_no_pair_sub {cls : Char → Bool} {l : List Char} {a b : Char}
    (h : noPairB cls l = true) (ha : cls a = true) (hb : cls b = true) :
    ¬([a, b] <:+: l) := by
  rintro ⟨s, t, hst⟩
  rw [← hst, List.append_assoc] at h
  have h2 := noPairB_append_right h
  unfold noPairB at h2
  simp [ha, hb] at h2

theorem noPairB_of_no_pair_sub {cls : Char → Bool} :
    ∀ (l : List Char),
    (∀ a b, cls a = true → cls b = true → ¬([a, b] <:+: l)) →
    noPairB cls l = true
  | [], _ => rfl
  | [a], _ => rfl
  | a :: b :: m, h => by
      unfold noPairB
      rw [Bool.and_eq_true]
      constructor
      · cases hab : (cls a && cls b) with
        | false => rfl
        | true =>
            rw [Bool.and_eq_true] at hab
            exact absurd (⟨[], m, rfl⟩ : [a, b] <:+: a :: b :: m)
              (h a b hab.1 hab.2)
      · exact noPairB_of_no_pair_sub (b :: m)
          (fun a' b' ha' hb' hinf => h a' b' ha' hb' (List.infix_cons hinf))

theorem noTripleNl_no_triple_sub {l : List Char}
    (h : noTripleNl l = true) : ¬(['\n', '\n', '\n'] <:+: l) := by
  rintro ⟨s, t, hst⟩
  rw [← hst, List.append_assoc] at h
  have h2 := noTripleNl_append_right h
  unfold noTripleNl at h2
  simp at h2

theorem noTripleNl_of_no_triple_sub :
    ∀ (l : List Char), ¬(['\n', '\n', '\n'] <:+: l) →
    noTripleNl l = true
  | [], _ => rfl
  | [a], _ => rfl
  | [a, b], _ => rfl
  | a :: b :: c :: m, h => by
      unfold noTripleNl
      rw [Bool.and_eq_true]
      constructor
      · cases hab : (a == '\n' && b == '\n' && c == '\n') with
        | false => rfl
        | true =>
            simp only [Bool.and_eq_true, beq_iff_eq] at hab
            obtain ⟨⟨h1, h2⟩, h3⟩ := hab
            subst h1; subst h2; subst h3
            exact absurd (⟨[], m, rfl⟩ : ['\n', '\n', '\n'] <:+: _) h
      · exact noTripleNl_of_no_triple_sub (b :: c :: m)
          (fun hinf => h (List.infix_cons hinf))

theorem noQuadRun_no_quad_sub {l : List Char} {c : Char}
    (h : noQuadRun l = true) (hc : isAsciiAlphaQ c = true) :
    ¬([c, c, c, c] <:+: l) := by
  rintro ⟨s, t, hst⟩
  rw [← hst, List.append_assoc] at h
  have h2 := noQuadRun_append_right h
  unfold noQuadRun at h2
  simp [hc] at h2

theorem noQuadRun_of_no_quad_sub :
    ∀ (l : List Char),
    (∀ c, isAsciiAlphaQ c = true → ¬([c, c, c, c] <:+: l)) →
    noQuadRun l = true
  | [], _ => rfl
  | [a], _ => rfl
  | [a, b], _ => rfl
  | [a, b, c], _ => rfl
  | a :: b :: c :: d :: m, h => by
      unfold noQuadRun
      rw [Bool.and_eq_true]
      constructor
      · cases hab : (isAsciiAlphaQ a && a == b && b == c && c == d) with
        | false => rfl
        | true =>
            simp only [Bool.and_eq_true, beq_iff_eq] at hab
            obtain ⟨⟨⟨h1, h2⟩, h3⟩, h4⟩ := hab
            subst h2; subst h3; subst h4
            exact absurd (⟨[], m, rfl⟩ : [a, a, a, a] <:+: _) (h a h1)
      · exact noQuadRun_of_no_quad_sub (b :: c :: d :: m)
          (fun c' hc' hinf => h c' hc' (List.infix_cons hinf))


theorem infix_strip {ks : List Char} :
    ∀ (e z : List Char), (∀ x ∈ e, ∀ y ∈ ks, y ≠ x) →
    ks <:+: e ++ z → ks <:+: z := by
  intro e
  induction e with
  | nil => intro z _ h; exact h
  | cons y m ih =>
      intro z he h
      rw [List.cons_append, List.infix_cons_iff] at h
      rcases h with h | h
      · cases ks with
        | nil => exact ⟨[], z, rfl⟩
        | cons k ks2 =>
            rw [List.cons_prefix_cons] at h
            exact absurd h.1
              (he y (List.mem_cons_self _ _) k (List.mem_cons_self _ _))
      · exact ih z (fun x hx => he x (List.mem_cons_of_mem _ hx)) h

theorem collapseClassAux_prefix_transfer (cls : Char → Bool) :
    ∀ (ks rest : List Char),
    (∀ x ∈ ks, cls x = false ∧ x ≠ ' ') →
    ks <+: collapseClassAux cls rest [] → ks <+: rest := by
  intro ks
  induction ks with
  | nil => intro rest _ _; exact List.nil_prefix
  | cons k ks2 ih =>
      intro rest hks h
      cases rest with
      | nil =>
          rw [show collapseClassAux cls [] [] = [] from rfl,
            List.prefix_nil] at h
          exact absurd h (List.cons_ne_nil _ _)
      | cons a rest2 =>
          by_cases ha : cls a = true
          · exfalso
            rw [show collapseClassAux cls (a :: rest2) [] =
              collapseClassAux cls rest2 [a] by simp [collapseClassAux, ha]]
              at h
            have hhead : (collapseClassAux cls rest2 [a]).head? = some k := by
              obtain ⟨t, ht⟩ := h
              rw [← ht]
              rfl
            rcases collapseClassAux_head cls rest2 [a] k hhead with h1 | h1
            · exact (hks k (List.mem_cons_self _ _)).2 h1
            · simp only [List.singleton_append, List.head?_cons,
                Option.some.injEq] at h1
              rw [h1] at ha
              rw [(hks k (List.mem_cons_self _ _)).1] at ha
              exact Bool.false_ne_true ha
          · rw [show collapseClassAux cls (a :: rest2) [] =
              a :: collapseClassAux cls rest2 [] by
                simp [collapseClassAux, emitCollapsedRun, ha]] at h
            rw [List.cons_prefix_cons] at h ⊢
            exact ⟨h.1, ih rest2 (fun x hx => hks x (List.mem_cons_of_mem _ hx))
              h.2⟩

theorem emitCollapsedRun_mem {run : List Char} {x : Char}
    (h : x ∈ emitCollapsedRun run) : x ∈ run ∨ x = ' ' := by
  unfold emitCollapsedRun at h
  split_ifs at h
  · simp at h
    exact Or.inr h
  · exact Or.inl h

theorem collapseClassAux_infix_transfer (cls : Char → Bool) :
    ∀ (l run ks : List Char),
    (∀ x ∈ ks, cls x = false ∧ x ≠ ' ') →
    (∀ x ∈ run, cls x = true) →
    ks <:+: collapseClassAux cls l run → ks <:+: l := by
  intro l
  induction l with
  | nil =>
      intro run ks hks hrun h
      cases ks with
      | nil => exact ⟨[], [], rfl⟩
      | cons k ks2 =>
          exfalso
          have hmem : k ∈ emitCollapsedRun run :=
            h.sublist.subset (List.mem_cons_self _ _)
          rcases emitCollapsedRun_mem hmem with h1 | h1
          · have h2 := hrun k h1
            rw [(hks k (List.mem_cons_self _ _)).1] at h2
            exact Bool.false_ne_true h2
          · exact (hks k (List.mem_cons_self _ _)).2 h1
  | cons a rest ih =>
      intro run ks hks hrun h
      by_cases ha : cls a = true
      · rw [show collapseClassAux cls (a :: rest) run =
          collapseClassAux cls rest (run ++ [a]) by
            simp [collapseClassAux, ha]] at h
        have := ih (run ++ [a]) ks hks
          (fun x hx => by
            rcases List.mem_append.mp hx with h1 | h1
            · exact hrun x h1
            · simp at h1; rw [h1]; exact ha) h
        exact List.infix_cons this
      · rw [show collapseClassAux cls (a :: rest) run =
          emitCollapsedRun run ++ a :: collapseClassAux cls rest [] by
            simp [collapseClassAux, ha]] at h
        have h2 : ks <:+: a :: collapseClassAux cls rest [] := by
          refine infix_strip (emitCollapsedRun run) _ ?_ h
          intro x hx y hy he
          rcases emitCollapsedRun_mem hx with h1 | h1
          · rw [he] at hy
            have h2 := hrun x h1
            rw [(hks x hy).1] at h2
            exact Bool.false_ne_true h2
          · rw [he, h1] at hy
            exact (hks ' ' hy).2 rfl
        rw [List.infix_cons_iff] at h2
        rcases h2 with h2 | h2
        · cases ks with
          | nil => exact ⟨[], a :: rest, rfl⟩
          | cons k ks2 =>
              rw [List.cons_prefix_cons] at h2
              have := collapseClassAux_prefix_transfer cls ks2 rest
                (fun x hx => hks x (List.mem_cons_of_mem _ hx)) h2.2
              exact (List.cons_prefix_cons.mpr ⟨h2.1, this⟩).isInfix
        · exact List.infix_cons (ih [] ks hks (fun x hx => absurd hx
            (List.not_mem_nil x)) h2)

theorem collapseClassAux_noPair (cls : Char → Bool) :
    ∀ (l run : List Char),
    noPairB cls (collapseClassAux cls l run) = true := by
  intro l
  induction l with
  | nil =>
      intro run
      unfold collapseClassAux emitCollapsedRun
      split_ifs with h
      · rfl
      · exact noPairB_short (by omega)
  | cons a rest ih =>
      intro run
      by_cases ha : cls a = true
      · rw [show collapseClassAux cls (a :: rest) run =
          collapseClassAux cls rest (run ++ [a]) by simp [collapseClassAux, ha]]
        exact ih (run ++ [a])
      · have ha2 : cls a = false := by revert ha; cases cls a <;> simp
        rw [show collapseClassAux cls (a :: rest) run =
          emitCollapsedRun run ++ a :: collapseClassAux cls rest [] by
            simp [collapseClassAux, ha]]
        have hbase : noPairB cls (a :: collapseClassAux cls rest []) :=
          noPairB_cons a (ih [])
            (fun b _ => by rw [ha2]; rfl)
        unfold emitCollapsedRun
        split_ifs with h2
        · exact noPairB_cons ' ' hbase (fun b hb => by
            simp at hb
            rw [← hb, ha2, Bool.and_false])
        · cases run with
          | nil => exact hbase
          | cons r m =>
              cases m with
              | nil =>
                  exact noPairB_cons r hbase (fun b hb => by
                    simp at hb
                    rw [← hb, ha2, Bool.and_false])
              | cons r2 m2 => simp at h2

theorem collapseClass_fix (cls : Char → Bool) :
    ∀ (l : List Char), noPairB cls l = true →
    collapseClassAux cls l [] = l
  | [], _ => rfl
  | [a], _ => by
      by_cases h : cls a = true
      · simp [collapseClassAux, emitCollapsedRun, h]
      · simp [collapseClassAux, emitCollapsedRun, h]
  | a :: b :: rest, h => by
      have hpair : (cls a && cls b) = false := by
        unfold noPairB at h
        rw [Bool.and_eq_true] at h
        cases hab : (cls a && cls b) with
        | false => rfl
        | true => rw [hab] at h; simp at h
      have htail : noPairB cls (b :: rest) = true := noPairB_tail h
      by_cases ha : cls a = true
      · have hb : cls b = false := by
          rw [ha, Bool.true_and] at hpair
          exact hpair
        have hrest : noPairB cls rest = true := noPairB_tail htail
        have ihr := collapseClass_fix cls rest hrest
        rw [show collapseClassAux cls (a :: b :: rest) [] =
          collapseClassAux cls (b :: rest) [a] by simp [collapseClassAux, ha]]
        rw [show collapseClassAux cls (b :: rest) [a] =
          emitCollapsedRun [a] ++ b :: collapseClassAux cls rest [] by
            simp [collapseClassAux, hb]]
        rw [ihr]
        rfl
      · have ihr := collapseClass_fix cls (b :: rest) htail
        rw [show collapseClassAux cls (a :: b :: rest) [] =
          emitCollapsedRun [] ++ a :: collapseClassAux cls (b :: rest) [] by
            simp [collapseClassAux, ha]]
        rw [ihr]
        rfl
  termination_by l => l.length


theorem emitNewlineRun_mem {run : List Char} {x : Char}
    (h : x ∈ emitNewlineRun run) : x ∈ run ∨ x = '\n' := by
  unfold emitNewlineRun at h
  split_ifs at h
  · simp at h
    exact Or.inr h
  · exact Or.inl h

theorem emitNewlineRun_cons {r : Char} {rs : List Char}
    (hall : ∀ x ∈ r :: rs, x = '\n') :
    ∃ m, emitNewlineRun (r :: rs) = '\n' :: m ∧ ∀ x ∈ m, x = '\n' := by
  unfold emitNewlineRun
  split_ifs with h
  · exact ⟨['\n'], rfl, by simp⟩
  · refine ⟨rs, ?_, fun x hx => hall x (List.mem_cons_of_mem _ hx)⟩
    rw [hall r (List.mem_cons_self _ _)]

theorem collapseNewlineAux_head_nl :
    ∀ (l run : List Char), run ≠ [] → (∀ x ∈ run, x = '\n') →
    (collapseNewlineAux l run).head? = some '\n' := by
  intro l
  induction l with
  | nil =>
      intro run hne hall
      cases run with
      | nil => exact absurd rfl hne
      | cons r rs =>
          obtain ⟨m, hm, -⟩ := emitNewlineRun_cons hall
          unfold collapseNewlineAux
          rw [hm]
          rfl
  | cons c rest ih =>
      intro run hne hall
      by_cases hC : c = '\n'
      · rw [show collapseNewlineAux (c :: rest) run =
          collapseNewlineAux rest (run ++ [c]) by simp [collapseNewlineAux, hC]]
        refine ih (run ++ [c]) (by simp) ?_
        intro x hx
        rcases List.mem_append.mp hx with h1 | h1
        · exact hall x h1
        · simp at h1; rw [h1, hC]
      · rw [show collapseNewlineAux (c :: rest) run =
          emitNewlineRun run ++ c :: collapseNewlineAux rest [] by
            simp [collapseNewlineAux, hC]]
        cases run with
        | nil => exact absurd rfl hne
        | cons r rs =>
            obtain ⟨m, hm, -⟩ := emitNewlineRun_cons hall
            rw [hm]
            rfl

theorem collapseNewlineAux_prefix_transfer :
    ∀ (ks rest : List Char), (∀ x ∈ ks, x ≠ '\n') →
    ks <+: collapseNewlineAux rest [] → ks <+: rest := by
  intro ks
  induction ks with
  | nil => intro rest _ _; exact List.nil_prefix
  | cons k ks2 ih =>
      intro rest hks h
      cases rest with
      | nil =>
          rw [show collapseNewlineAux [] [] = [] from rfl, List.prefix_nil] at h
          exact absurd h (List.cons_ne_nil _ _)
      | cons a rest2 =>
          by_cases hA : a = '\n'
          · exfalso
            rw [show collapseNewlineAux (a :: rest2) [] =
              collapseNewlineAux rest2 [a] by simp [collapseNewlineAux, hA]]
              at h
            have hhead : (collapseNewlineAux rest2 [a]).head? = some k := by
              obtain ⟨t, ht⟩ := h
              rw [← ht]
              rfl
            rw [collapseNewlineAux_head_nl rest2 [a] (by simp)
              (by simp [hA])] at hhead
            exact hks k (List.mem_cons_self _ _) (by simpa using hhead.symm)
          · rw [show collapseNewlineAux (a :: rest2) [] =
              a :: collapseNewlineAux rest2 [] by
                simp [collapseNewlineAux, emitNewlineRun, hA]] at h
            rw [List.cons_prefix_cons] at h ⊢
            exact ⟨h.1, ih rest2 (fun x hx => hks x (List.mem_cons_of_mem _ hx))
              h.2⟩

theorem collapseNewlineAux_infix_transfer :
    ∀ (l run ks : List Char), (∀ x ∈ ks, x ≠ '\n') →
    (∀ x ∈ run, x = '\n') →
    ks <:+: collapseNewlineAux l run → ks <:+: l := by
  intro l
  induction l with
  | nil =>
      intro run ks hks hrun h
      cases ks with
      | nil => exact ⟨[], [], rfl⟩
      | cons k ks2 =>
          exfalso
          have hmem : k ∈ emitNewlineRun run :=
            h.sublist.subset (List.mem_cons_self _ _)
          rcases emitNewlineRun_mem hmem with h1 | h1
          · exact hks k (List.mem_cons_self _ _) (hrun k h1)
          · exact hks k (List.mem_cons_self _ _) h1
  | cons a rest ih =>
      intro run ks hks hrun h
      by_cases hA : a = '\n'
      · rw [show collapseNewlineAux (a :: rest) run =
          collapseNewlineAux rest (run ++ [a]) by simp [collapseNewlineAux, hA]]
          at h
        refine List.infix_cons (ih (run ++ [a]) ks hks ?_ h)
        intro x hx
        rcases List.mem_append.mp hx with h1 | h1
        · exact hrun x h1
        · simp at h1; rw [h1, hA]
      · rw [show collapseNewlineAux (a :: rest) run =
          emitNewlineRun run ++ a :: collapseNewlineAux rest [] by
            simp [collapseNewlineAux, hA]] at h
        have h2 : ks <:+: a :: collapseNewlineAux rest [] := by
          refine infix_strip (emitNewlineRun run) _ ?_ h
          intro x hx y hy he
          rcases emitNewlineRun_mem hx with h1 | h1
          · exact hks y hy (he.trans (hrun x h1))
          · exact hks y hy (he.trans h1)
        rw [List.infix_cons_iff] at h2
        rcases h2 with h2 | h2
        · cases ks with
          | nil => exact ⟨[], a :: rest, rfl⟩
          | cons k ks2 =>
              rw [List.cons_prefix_cons] at h2
              have := collapseNewlineAux_prefix_transfer ks2 rest
                (fun x hx => hks x (List.mem_cons_of_mem _ hx)) h2.2
              exact (List.cons_prefix_cons.mpr ⟨h2.1, this⟩).isInfix
        · exact List.infix_cons (ih [] ks hks (fun x hx => absurd hx
            (List.not_mem_nil x)) h2)

theorem noTripleNl_cons1 {a : Char} {X : List Char}
    (ha : a ≠ '\n') (h : noTripleNl X = true) :
    noTripleNl (a :: X) = true := by
  match X with
  | [] => rfl
  | [b] => rfl
  | b :: c :: X2 =>
      unfold noTripleNl
      rw [Bool.and_eq_true]
      refine ⟨?_, h⟩
      rw [beq_eq_false_iff_ne.mpr ha]
      rfl

theorem noTripleNl_cons2 (a : Char) {b : Char} {X : List Char}
    (hb : b ≠ '\n') (h : noTripleNl (b :: X) = true) :
    noTripleNl (a :: b :: X) = true := by
  match X with
  | [] => rfl
  | c :: X2 =>
      unfold noTripleNl
      rw [Bool.and_eq_true]
      refine ⟨?_, h⟩
      rw [beq_eq_false_iff_ne.mpr hb]
      simp

theorem noTripleNl_cons3 (a : Char) {b c : Char} {X : List Char}
    (hc : c ≠ '\n') (h : noTripleNl (b :: c :: X) = true) :
    noTripleNl (a :: b :: c :: X) = true := by
  unfold noTripleNl
  rw [Bool.and_eq_true]
  refine ⟨?_, h⟩
  rw [beq_eq_false_iff_ne.mpr hc]
  simp

theorem collapseNewlineAux_noTriple :
    ∀ (l run : List Char), (∀ x ∈ run, x = '\n') →
    noTripleNl (collapseNewlineAux l run) = true := by
  intro l
  induction l with
  | nil =>
      intro run hall
      unfold collapseNewlineAux emitNewlineRun
      split_ifs with h
      · rfl
      · exact noTripleNl_short (by omega)
  | cons c rest ih =>
      intro run hall
      by_cases hC : c = '\n'
      · rw [show collapseNewlineAux (c :: rest) run =
          collapseNewlineAux rest (run ++ [c]) by simp [collapseNewlineAux, hC]]
        refine ih (run ++ [c]) ?_
        intro x hx
        rcases List.mem_append.mp hx with h1 | h1
        · exact hall x h1
        · simp at h1; rw [h1, hC]
      · rw [show collapseNewlineAux (c :: rest) run =
          emitNewlineRun run ++ c :: collapseNewlineAux rest [] by
            simp [collapseNewlineAux, hC]]
        have hbase : noTripleNl (c :: collapseNewlineAux rest []) = true :=
          noTripleNl_cons1 hC (ih [] (by simp))
        unfold emitNewlineRun
        split_ifs with h2
        · exact noTripleNl_cons3 '\n' hC (noTripleNl_cons2 '\n' hC hbase)
        · cases run with
          | nil => exact hbase
          | cons r1 m =>
              have hr1 : r1 = '\n' := hall r1 (List.mem_cons_self _ _)
              cases m with
              | nil =>
                  rw [List.singleton_append, hr1]
                  exact noTripleNl_cons2 '\n' hC hbase
              | cons r2 m2 =>
                  cases m2 with
                  | nil =>
                      rw [show ([r1, r2] : List Char) ++
                        c :: collapseNewlineAux rest [] =
                        r1 :: r2 :: c :: collapseNewlineAux rest [] from rfl]
                      exact noTripleNl_cons3 r1 hC (noTripleNl_cons2 r2 hC hbase)
                  | cons r3 m3 => simp at h2

theorem collapseNewlineAux_fix :
    ∀ (l run : List Char), (∀ x ∈ run, x = '\n') →
    noTripleNl (run ++ l) = true → collapseNewlineAux l run = run ++ l := by
  intro l
  induction l with
  | nil =>
      intro run hall h
      rw [List.append_nil]
      unfold collapseNewlineAux emitNewlineRun
      split_ifs with h3
      · exfalso
        match run, h3 with
        | r1 :: r2 :: r3 :: t, _ =>
            rw [hall r1 (by simp), hall r2 (by simp), hall r3 (by simp),
              List.append_nil] at h
            unfold noTripleNl at h
            simp at h
      · rfl
  | cons c rest ih =>
      intro run hall h
      by_cases hC : c = '\n'
      · rw [show collapseNewlineAux (c :: rest) run =
          collapseNewlineAux rest (run ++ [c]) by simp [collapseNewlineAux, hC]]
        rw [ih (run ++ [c])
          (fun x hx => by
            rcases List.mem_append.mp hx with h1 | h1
            · exact hall x h1
            · simp at h1; rw [h1, hC])
          (by rw [List.append_assoc]; simpa using h)]
        simp
      · rw [show collapseNewlineAux (c :: rest) run =
          emitNewlineRun run ++ c :: collapseNewlineAux rest [] by
            simp [collapseNewlineAux, hC]]
        have hrest : noTripleNl rest = true :=
          noTripleNl_tail (noTripleNl_append_right h)
        rw [ih [] (by simp) (by simpa using hrest)]
        unfold emitNewlineRun
        split_ifs with h3
        · exfalso
          match run, h3 with
          | r1 :: r2 :: r3 :: t, _ =>
              rw [hall r1 (by simp), hall r2 (by simp), hall r3 (by simp)] at h
              unfold noTripleNl at h
              simp at h
        · rfl


theorem bool_eq_false {b : Bool} (h : ¬ b = true) : b = false := by
  cases b with
  | false => rfl
  | true => exact absurd rfl h

theorem emitRepeatRun_mem {run : List Char} {x : Char}
    (h : x ∈ emitRepeatRun run) : x ∈ run := by
  unfold emitRepeatRun at h
  split_ifs at h
  · exact List.mem_of_mem_take h
  · exact h

theorem emitRepeatRun_cons (r : Char) (rs : List Char) :
    ∃ m, emitRepeatRun (r :: rs) = r :: m := by
  unfold emitRepeatRun
  split_ifs with h
  · exact ⟨rs.take 1, by simp⟩
  · exact ⟨rs, rfl⟩

theorem collapseRepeatsAux_head :
    ∀ (l : List Char) (r : Char) (rs : List Char),
    (collapseRepeatsAux l (r :: rs)).head? = some r := by
  intro l
  induction l with
  | nil =>
      intro r rs
      obtain ⟨m, hm⟩ := emitRepeatRun_cons r rs
      unfold collapseRepeatsAux
      rw [hm]
      rfl
  | cons c rest ih =>
      intro r rs
      by_cases hcr : c = r
      · rw [show collapseRepeatsAux (c :: rest) (r :: rs) =
          collapseRepeatsAux rest (r :: (rs ++ [c])) by
            simp [collapseRepeatsAux, hcr]]
        exact ih r (rs ++ [c])
      · rw [show collapseRepeatsAux (c :: rest) (r :: rs) =
          emitRepeatRun (r :: rs) ++
            (if isAsciiAlphaQ c = true then collapseRepeatsAux rest [c]
             else c :: collapseRepeatsAux rest []) by
            simp [collapseRepeatsAux, hcr]]
        obtain ⟨m, hm⟩ := emitRepeatRun_cons r rs
        rw [hm]
        rfl

theorem collapseRepeatsAux_prefix_transfer :
    ∀ (ks rest : List Char), (∀ x ∈ ks, isAsciiAlphaQ x = false) →
    ks <+: collapseRepeatsAux rest [] → ks <+: rest := by
  intro ks
  induction ks with
  | nil => intro rest _ _; exact List.nil_prefix
  | cons k ks2 ih =>
      intro rest hks h
      cases rest with
      | nil =>
          rw [show collapseRepeatsAux [] [] = [] from rfl, List.prefix_nil] at h
          exact absurd h (List.cons_ne_nil _ _)
      | cons a rest2 =>
          by_cases hA : isAsciiAlphaQ a = true
          · exfalso
            rw [show collapseRepeatsAux (a :: rest2) [] =
              collapseRepeatsAux rest2 [a] by simp [collapseRepeatsAux, hA]]
              at h
            have hhead : (collapseRepeatsAux rest2 [a]).head? = some k := by
              obtain ⟨t, ht⟩ := h
              rw [← ht]
              rfl
            rw [collapseRepeatsAux_head rest2 a []] at hhead
            have hka : a = k := by simpa using hhead
            rw [hka] at hA
            rw [hks k (List.mem_cons_self _ _)] at hA
            exact Bool.false_ne_true hA
          · rw [show collapseRepeatsAux (a :: rest2) [] =
              a :: collapseRepeatsAux rest2 [] by
                simp [collapseRepeatsAux, hA]] at h
            rw [List.cons_prefix_cons] at h ⊢
            exact ⟨h.1, ih rest2 (fun x hx => hks x (List.mem_cons_of_mem _ hx))
              h.2⟩

theorem collapseRepeatsAux_infix_transfer :
    ∀ (l run ks : List Char), (∀ x ∈ ks, isAsciiAlphaQ x = false) →
    (∀ x ∈ run, isAsciiAlphaQ x = true) →
    ks <:+: collapseRepeatsAux l run → ks <:+: l := by
  intro l
  induction l with
  | nil =>
      intro run ks hks hrun h
      cases ks with
      | nil => exact ⟨[], [], rfl⟩
      | cons k ks2 =>
          exfalso
          have hmem : k ∈ emitRepeatRun run :=
            h.sublist.subset (List.mem_cons_self _ _)
          have h2 := hrun k (emitRepeatRun_mem hmem)
          rw [hks k (List.mem_cons_self _ _)] at h2
          exact Bool.false_ne_true h2
  | cons c rest ih =>
      intro run ks hks hrun h
      cases run with
      | nil =>
          by_cases hC : isAsciiAlphaQ c = true
          · rw [show collapseRepeatsAux (c :: rest) [] =
              collapseRepeatsAux rest [c] by simp [collapseRepeatsAux, hC]] at h
            exact List.infix_cons (ih [c] ks hks
              (fun x hx => by simp at hx; rw [hx]; exact hC) h)
          · rw [show collapseRepeatsAux (c :: rest) [] =
              c :: collapseRepeatsAux rest [] by
                simp [collapseRepeatsAux, hC]] at h
            rw [List.infix_cons_iff] at h
            rcases h with h | h
            · cases ks with
              | nil => exact ⟨[], c :: rest, rfl⟩
              | cons k ks2 =>
                  rw [List.cons_prefix_cons] at h
                  have := collapseRepeatsAux_prefix_transfer ks2 rest
                    (fun x hx => hks x (List.mem_cons_of_mem _ hx)) h.2
                  exact (List.cons_prefix_cons.mpr ⟨h.1, this⟩).isInfix
            · exact List.infix_cons (ih [] ks hks (fun x hx => absurd hx
                (List.not_mem_nil x)) h)
      | cons r rs =>
          by_cases hcr : c = r
          · rw [show collapseRepeatsAux (c :: rest) (r :: rs) =
              collapseRepeatsAux rest (r :: (rs ++ [c])) by
                simp [collapseRepeatsAux, hcr]] at h
            refine List.infix_cons (ih (r :: (rs ++ [c])) ks hks ?_ h)
            intro x hx
            rcases List.mem_cons.mp hx with h1 | h1
            · rw [h1]; exact hrun r (List.mem_cons_self _ _)
            · rcases List.mem_append.mp h1 with h2 | h2
              · exact hrun x (List.mem_cons_of_mem _ h2)
              · simp at h2
                rw [h2, hcr]
                exact hrun r (List.mem_cons_self _ _)
          · rw [show collapseRepeatsAux (c :: rest) (r :: rs) =
              emitRepeatRun (r :: rs) ++
                (if isAsciiAlphaQ c = true then collapseRepeatsAux rest [c]
                 else c :: collapseRepeatsAux rest []) by
                simp [collapseRepeatsAux, hcr]] at h
            have h2 := infix_strip (emitRepeatRun (r :: rs)) _
              (fun x hx y hy he => by
                have hax := hrun x (emitRepeatRun_mem hx)
                rw [← he] at hax
                rw [hks y hy] at hax
                exact Bool.false_ne_true hax) h
            by_cases hC : isAsciiAlphaQ c = true
            · rw [if_pos hC] at h2
              exact List.infix_cons (ih [c] ks hks
                (fun x hx => by simp at hx; rw [hx]; exact hC) h2)
            · rw [if_neg hC] at h2
              rw [List.infix_cons_iff] at h2
              rcases h2 with h2 | h2
              · cases ks with
                | nil => exact ⟨[], c :: rest, rfl⟩
                | cons k ks2 =>
                    rw [List.cons_prefix_cons] at h2
                    have := collapseRepeatsAux_prefix_transfer ks2 rest
                      (fun x hx => hks x (List.mem_cons_of_mem _ hx)) h2.2
                    exact (List.cons_prefix_cons.mpr ⟨h2.1, this⟩).isInfix
              · exact List.infix_cons (ih [] ks hks (fun x hx => absurd hx
                  (List.not_mem_nil x)) h2)

theorem noQuadRun_cons1 {a : Char} {X : List Char}
    (ha : isAsciiAlphaQ a = false) (h : noQuadRun X = true) :
    noQuadRun (a :: X) = true := by
  match X with
  | [] => rfl
  | [b] => rfl
  | [b, c] => rfl
  | b :: c :: d :: X2 =>
      unfold noQuadRun
      rw [Bool.and_eq_true]
      refine ⟨?_, h⟩
      rw [ha]
      rfl

theorem noQuadRun_cons_head_ne {x c : Char} {Y : List Char}
    (hY : Y.head? = some c) (hx : x ≠ c) (h : noQuadRun Y = true) :
    noQuadRun (x :: Y) = true := by
  match Y, hY with
  | c2 :: Y2, hY =>
      have hc2 : c2 = c := by simpa using hY
      subst hc2
      match Y2 with
      | [] => rfl
      | [b] => rfl
      | b1 :: b2 :: t =>
          unfold noQuadRun
          rw [Bool.and_eq_true]
          refine ⟨?_, h⟩
          rw [beq_eq_false_iff_ne.mpr hx]
          simp

theorem noQuadRun_cons2_head_ne {x c : Char} {Y : List Char}
    (hY : Y.head? = some c) (hx : x ≠ c) (h : noQuadRun (x :: Y) = true) :
    noQuadRun (x :: x :: Y) = true := by
  match Y, hY, h with
  | c2 :: Y2, hY, h =>
      have hc2 : c2 = c := by simpa using hY
      subst hc2
      match Y2, h with
      | [], _ => rfl
      | b :: t, h =>
          unfold noQuadRun
          rw [Bool.and_eq_true]
          refine ⟨?_, h⟩
          rw [beq_eq_false_iff_ne.mpr hx]
          simp

theorem noQuadRun_cons3_head_ne {x c : Char} {Y : List Char}
    (hY : Y.head? = some c) (hx : x ≠ c) (h : noQuadRun (x :: x :: Y) = true) :
    noQuadRun (x :: x :: x :: Y) = true := by
  match Y, hY, h with
  | c2 :: Y2, hY, h =>
      have hc2 : c2 = c := by simpa using hY
      subst hc2
      unfold noQuadRun
      rw [Bool.and_eq_true]
      refine ⟨?_, h⟩
      rw [beq_eq_false_iff_ne.mpr hx]
      simp

theorem noQuadRun_prepend_small :
    ∀ (e : List Char) (r0 c : Char) (Z : List Char), e.length ≤ 3 →
    (∀ x ∈ e, x = r0) → Z.head? = some c → c ≠ r0 → noQuadRun Z = true →
    noQuadRun (e ++ Z) = true := by
  intro e r0 c Z hlen hall hZ hc h
  match e, hlen, hall with
  | [], _, _ => exact h
  | [x1], _, hall =>
      rw [hall x1 (by simp), List.singleton_append]
      exact noQuadRun_cons_head_ne hZ (fun he => hc he.symm) h
  | [x1, x2], _, hall =>
      rw [hall x1 (by simp), hall x2 (by simp),
        show ([r0, r0] : List Char) ++ Z = r0 :: r0 :: Z from rfl]
      exact noQuadRun_cons2_head_ne hZ (fun he => hc he.symm)
        (noQuadRun_cons_head_ne hZ (fun he => hc he.symm) h)
  | [x1, x2, x3], _, hall =>
      rw [hall x1 (by simp), hall x2 (by simp), hall x3 (by simp),
        show ([r0, r0, r0] : List Char) ++ Z = r0 :: r0 :: r0 :: Z from rfl]
      exact noQuadRun_cons3_head_ne hZ (fun he => hc he.symm)
        (noQuadRun_cons2_head_ne hZ (fun he => hc he.symm)
          (noQuadRun_cons_head_ne hZ (fun he => hc he.symm) h))
  | x1 :: x2 :: x3 :: x4 :: t, hlen, _ => simp at hlen

theorem collapseRepeatsAux_noQuad :
    ∀ (l run : List Char) (r : Char), (∀ x ∈ run, x = r) →
    noQuadRun (collapseRepeatsAux l run) = true := by
  intro l
  induction l with
  | nil =>
      intro run r hall
      unfold collapseRepeatsAux emitRepeatRun
      split_ifs with h
      · refine noQuadRun_short ?_
        rw [List.length_take]
        omega
      · exact noQuadRun_short (by omega)
  | cons c rest ih =>
      intro run r hall
      cases run with
      | nil =>
          by_cases hC : isAsciiAlphaQ c = true
          · rw [show collapseRepeatsAux (c :: rest) [] =
              collapseRepeatsAux rest [c] by simp [collapseRepeatsAux, hC]]
            exact ih [c] c (by simp)
          · rw [show collapseRepeatsAux (c :: rest) [] =
              c :: collapseRepeatsAux rest [] by simp [collapseRepeatsAux, hC]]
            exact noQuadRun_cons1 (bool_eq_false hC) (ih [] c (by simp))
      | cons r0 rs =>
          by_cases hcr : c = r0
          · rw [show collapseRepeatsAux (c :: rest) (r0 :: rs) =
              collapseRepeatsAux rest (r0 :: (rs ++ [c])) by
                simp [collapseRepeatsAux, hcr]]
            refine ih (r0 :: (rs ++ [c])) r0 ?_
            intro x hx
            rcases List.mem_cons.mp hx with h1 | h1
            · exact h1
            · rcases List.mem_append.mp h1 with h2 | h2
              · rw [hall x (List.mem_cons_of_mem _ h2),
                  ← hall r0 (List.mem_cons_self _ _)]
              · simp at h2; rw [h2, hcr]
          · rw [show collapseRepeatsAux (c :: rest) (r0 :: rs) =
              emitRepeatRun (r0 :: rs) ++
                (if isAsciiAlphaQ c = true then collapseRepeatsAux rest [c]
                 else c :: collapseRepeatsAux rest []) by
                simp [collapseRepeatsAux, hcr]]
            have hZq : noQuadRun
                (if isAsciiAlphaQ c = true then collapseRepeatsAux rest [c]
                 else c :: collapseRepeatsAux rest []) = true := by
              split_ifs with hC
              · exact ih [c] c (by simp)
              · exact noQuadRun_cons1 (bool_eq_false hC) (ih [] c (by simp))
            have hZh : (if isAsciiAlphaQ c = true then collapseRepeatsAux rest [c]
                 else c :: collapseRepeatsAux rest []).head? = some c := by
              split_ifs with hC
              · exact collapseRepeatsAux_head rest c []
              · rfl
            have hlen3 : (emitRepeatRun (r0 :: rs)).length ≤ 3 := by
              unfold emitRepeatRun
              split_ifs with h4
              · rw [List.length_take]
                omega
              · simp at h4
                simp
                omega
            refine noQuadRun_prepend_small _ r0 c _ hlen3 ?_ hZh hcr hZq
            intro x hx
            have hxm := emitRepeatRun_mem hx
            rcases List.mem_cons.mp hxm with h1 | h1
            · exact h1
            · rw [hall x (List.mem_cons_of_mem _ h1),
                ← hall r0 (List.mem_cons_self _ _)]

theorem collapseRepeatsAux_fix :
    ∀ (l run : List Char) (r : Char), (∀ x ∈ run, x = r) →
    (run ≠ [] → isAsciiAlphaQ r = true) →
    noQuadRun (run ++ l) = true → collapseRepeatsAux l run = run ++ l := by
  intro l
  induction l with
  | nil =>
      intro run r hall halpha h
      rw [List.append_nil]
      unfold collapseRepeatsAux emitRepeatRun
      split_ifs with h4
      · exfalso
        match run, h4, hall, h, halpha with
        | r1 :: r2 :: r3 :: r4 :: t, _, hall, h, halpha =>
            have hr : isAsciiAlphaQ r = true := halpha (List.cons_ne_nil _ _)
            rw [hall r1 (by simp), hall r2 (by simp), hall r3 (by simp),
              hall r4 (by simp), List.append_nil] at h
            unfold noQuadRun at h
            simp [hr] at h
      · rfl
  | cons c rest ih =>
      intro run r hall halpha h
      cases run with
      | nil =>
          by_cases hC : isAsciiAlphaQ c = true
          · rw [show collapseRepeatsAux (c :: rest) [] =
              collapseRepeatsAux rest [c] by simp [collapseRepeatsAux, hC]]
            rw [ih [c] c (by simp) (fun _ => hC) (by simpa using h)]
            rfl
          · rw [show collapseRepeatsAux (c :: rest) [] =
              c :: collapseRepeatsAux rest [] by simp [collapseRepeatsAux, hC]]
            rw [ih [] c (by simp) (fun hne => absurd rfl hne)
              (by simpa using noQuadRun_tail (show noQuadRun (c :: rest) = true
                by simpa using h))]
            rfl
      | cons r0 rs =>
          have hr0 : r0 = r := hall r0 (List.mem_cons_self _ _)
          by_cases hcr : c = r0
          · rw [show collapseRepeatsAux (c :: rest) (r0 :: rs) =
              collapseRepeatsAux rest (r0 :: (rs ++ [c])) by
                simp [collapseRepeatsAux, hcr]]
            rw [ih (r0 :: (rs ++ [c])) r
              (fun x hx => by
                rcases List.mem_cons.mp hx with h1 | h1
                · rw [h1]; exact hr0
                · rcases List.mem_append.mp h1 with h2 | h2
                  · exact hall x (List.mem_cons_of_mem _ h2)
                  · simp at h2; rw [h2, hcr]; exact hr0)
              (fun _ => halpha (List.cons_ne_nil _ _))
              (by
                rw [show (r0 :: (rs ++ [c])) ++ rest =
                  (r0 :: rs) ++ c :: rest by simp]
                exact h)]
            simp
          · rw [show collapseRepeatsAux (c :: rest) (r0 :: rs) =
              emitRepeatRun (r0 :: rs) ++
                (if isAsciiAlphaQ c = true then collapseRepeatsAux rest [c]
                 else c :: collapseRepeatsAux rest []) by
                simp [collapseRepeatsAux, hcr]]
            have hZ : (if isAsciiAlphaQ c = true then collapseRepeatsAux rest [c]
                 else c :: collapseRepeatsAux rest []) = c :: rest := by
              split_ifs with hC
              · rw [ih [c] c (by simp) (fun _ => hC)
                  (by simpa using noQuadRun_append_right h)]
                rfl
              · rw [ih [] c (by simp) (fun hne => absurd rfl hne)
                  (by simpa using noQuadRun_tail (noQuadRun_append_right h))]
                rfl
            rw [hZ]
            have hemit : emitRepeatRun (r0 :: rs) = r0 :: rs := by
              unfold emitRepeatRun
              split_ifs with h4
              · exfalso
                match r0 :: rs, h4, hall, h with
                | r1 :: r2 :: r3 :: r4 :: t, _, hall, h =>
                    have hr : isAsciiAlphaQ r = true :=
                      halpha (List.cons_ne_nil _ _)
                    rw [hall r1 (by simp), hall r2 (by simp), hall r3 (by simp),
                      hall r4 (by simp)] at h
                    unfold noQuadRun at h
                    simp [hr] at h
              · rfl
            rw [hemit]


theorem head_dropWhile_false {p : Char → Bool} :
    ∀ (l : List Char) {c : Char},
    (l.dropWhile p).head? = some c → p c = false := by
  intro l
  induction l with
  | nil => intro c h; simp at h
  | cons a t ih =>
      intro c h
      by_cases hp : p a = true
      · rw [List.dropWhile_cons, if_pos hp] at h
        exact ih h
      · rw [List.dropWhile_cons, if_neg hp] at h
        simp at h
        rw [← h]
        exact bool_eq_false hp

theorem rdrop_prefix_trim (d : List Char) :
    (d.reverse.dropWhile isJsWhitespace).reverse <+: d := by
  have h1 : d.reverse.dropWhile isJsWhitespace <:+ d.reverse :=
    List.dropWhile_suffix _
  rw [← List.reverse_reverse (d.reverse.dropWhile isJsWhitespace)] at h1
  exact List.reverse_suffix.mp h1

theorem trimList_within (l : List Char) : trimList l <:+: l :=
  ((rdrop_prefix_trim (l.dropWhile isJsWhitespace)).isInfix).trans
    ((List.dropWhile_suffix _).isInfix)

theorem trimList_mem {l : List Char} {x : Char} (h : x ∈ trimList l) :
    x ∈ l :=
  (trimList_within l).sublist.subset h

theorem trimList_idem (l : List Char) : trimList (trimList l) = trimList l := by
  have hrrev : (trimList l).reverse =
      (l.dropWhile isJsWhitespace).reverse.dropWhile isJsWhitespace := by
    unfold trimList
    rw [List.reverse_reverse]
  have h1 : (trimList l).dropWhile isJsWhitespace = trimList l := by
    cases hcase : trimList l with
    | nil => rfl
    | cons c t =>
        have hpre : trimList l <+: l.dropWhile isJsWhitespace :=
          rdrop_prefix_trim _
        have hhd : (l.dropWhile isJsWhitespace).head? = some c := by
          obtain ⟨t2, ht2⟩ := hpre
          rw [← ht2, hcase]
          rfl
        have hc : isJsWhitespace c = false := head_dropWhile_false l hhd
        rw [List.dropWhile_cons, if_neg (by simp [hc])]
  have h2 : (trimList l).reverse.dropWhile isJsWhitespace =
      (trimList l).reverse := by
    cases hcase : (trimList l).reverse with
    | nil => rfl
    | cons c t =>
        have hc : isJsWhitespace c = false := by
          refine head_dropWhile_false (l.dropWhile isJsWhitespace).reverse ?_
          rw [← hrrev, hcase]
          rfl
        rw [List.dropWhile_cons, if_neg (by simp [hc])]
  show (((trimList l).dropWhile isJsWhitespace).reverse.dropWhile
    isJsWhitespace).reverse = trimList l
  rw [h1, h2, List.reverse_reverse]

theorem collapseClassAux_mem (cls : Char → Bool) :
    ∀ (l run : List Char) (x : Char), x ∈ collapseClassAux cls l run →
    x ∈ run ∨ x ∈ l ∨ x = ' ' := by
  intro l
  induction l with
  | nil =>
      intro run x h
      unfold collapseClassAux at h
      rcases emitCollapsedRun_mem h with h1 | h1
      · exact Or.inl h1
      · exact Or.inr (Or.inr h1)
  | cons c rest ih =>
      intro run x h
      by_cases hc : cls c = true
      · rw [show collapseClassAux cls (c :: rest) run =
          collapseClassAux cls rest (run ++ [c]) by
            simp [collapseClassAux, hc]] at h
        rcases ih (run ++ [c]) x h with h1 | h1 | h1
        · rcases List.mem_append.mp h1 with h2 | h2
          · exact Or.inl h2
          · simp at h2
            exact Or.inr (Or.inl (by simp [h2]))
        · exact Or.inr (Or.inl (List.mem_cons_of_mem _ h1))
        · exact Or.inr (Or.inr h1)
      · rw [show collapseClassAux cls (c :: rest) run =
          emitCollapsedRun run ++ c :: collapseClassAux cls rest [] by
            simp [collapseClassAux, hc]] at h
        rcases List.mem_append.mp h with h1 | h1
        · rcases emitCollapsedRun_mem h1 with h2 | h2
          · exact Or.inl h2
          · exact Or.inr (Or.inr h2)
        · rcases List.mem_cons.mp h1 with h2 | h2
          · exact Or.inr (Or.inl (by simp [h2]))
          · rcases ih [] x h2 with h3 | h3 | h3
            · exact absurd h3 (List.not_mem_nil x)
            · exact Or.inr (Or.inl (List.mem_cons_of_mem _ h3))
            · exact Or.inr (Or.inr h3)

theorem collapseNewlineAux_mem :
    ∀ (l run : List Char) (x : Char), x ∈ collapseNewlineAux l run →
    x ∈ run ∨ x ∈ l ∨ x = '\n' := by
  intro l
  induction l with
  | nil =>
      intro run x h
      unfold collapseNewlineAux at h
      rcases emitNewlineRun_mem h with h1 | h1
      · exact Or.inl h1
      · exact Or.inr (Or.inr h1)
  | cons c rest ih =>
      intro run x h
      by_cases hc : c = '\n'
      · rw [show collapseNewlineAux (c :: rest) run =
          collapseNewlineAux rest (run ++ [c]) by
            simp [collapseNewlineAux, hc]] at h
        rcases ih (run ++ [c]) x h with h1 | h1 | h1
        · rcases List.mem_append.mp h1 with h2 | h2
          · exact Or.inl h2
          · simp at h2
            exact Or.inr (Or.inl (by simp [h2]))
        · exact Or.inr (Or.inl (List.mem_cons_of_mem _ h1))
        · exact Or.inr (Or.inr h1)
      · rw [show collapseNewlineAux (c :: rest) run =
          emitNewlineRun run ++ c :: collapseNewlineAux rest [] by
            simp [collapseNewlineAux, hc]] at h
        rcases List.mem_append.mp h with h1 | h1
        · rcases emitNewlineRun_mem h1 with h2 | h2
          · exact Or.inl h2
          · exact Or.inr (Or.inr h2)
        · rcases List.mem_cons.mp h1 with h2 | h2
          · exact Or.inr (Or.inl (by simp [h2]))
          · rcases ih [] x h2 with h3 | h3 | h3
            · exact absurd h3 (List.not_mem_nil x)
            · exact Or.inr (Or.inl (List.mem_cons_of_mem _ h3))
            · exact Or.inr (Or.inr h3)

theorem collapseRepeatsAux_mem :
    ∀ (l run : List Char) (x : Char), x ∈ collapseRepeatsAux l run →
    x ∈ run ∨ x ∈ l := by
  intro l
  induction l with
  | nil =>
      intro run x h
      unfold collapseRepeatsAux at h
      exact Or.inl (emitRepeatRun_mem h)
  | cons c rest ih =>
      intro run x h
      cases run with
      | nil =>
          by_cases hC : isAsciiAlphaQ c = true
          · rw [show collapseRepeatsAux (c :: rest) [] =
              collapseRepeatsAux rest [c] by simp [collapseRepeatsAux, hC]] at h
            rcases ih [c] x h with h1 | h1
            · simp at h1
              exact Or.inr (by simp [h1])
            · exact Or.inr (List.mem_cons_of_mem _ h1)
          · rw [show collapseRepeatsAux (c :: rest) [] =
              c :: collapseRepeatsAux rest [] by
                simp [collapseRepeatsAux, hC]] at h
            rcases List.mem_cons.mp h with h1 | h1
            · exact Or.inr (by simp [h1])
            · rcases ih [] x h1 with h2 | h2
              · exact absurd h2 (List.not_mem_nil x)
              · exact Or.inr (List.mem_cons_of_mem _ h2)
      | cons r rs =>
          by_cases hcr : c = r
          · rw [show collapseRepeatsAux (c :: rest) (r :: rs) =
              collapseRepeatsAux rest (r :: (rs ++ [c])) by
                simp [collapseRepeatsAux, hcr]] at h
            rcases ih (r :: (rs ++ [c])) x h with h1 | h1
            · rcases List.mem_cons.mp h1 with h2 | h2
              · exact Or.inl (by simp [h2])
              · rcases List.mem_append.mp h2 with h3 | h3
                · exact Or.inl (List.mem_cons_of_mem _ h3)
                · simp at h3
                  exact Or.inr (by simp [h3])
            · exact Or.inr (List.mem_cons_of_mem _ h1)
          · rw [show collapseRepeatsAux (c :: rest) (r :: rs) =
              emitRepeatRun (r :: rs) ++
                (if isAsciiAlphaQ c = true then collapseRepeatsAux rest [c]
                 else c :: collapseRepeatsAux rest []) by
                simp [collapseRepeatsAux, hcr]] at h
            rcases List.mem_append.mp h with h1 | h1
            · exact Or.inl (emitRepeatRun_mem h1)
            · split_ifs at h1 with hC
              · rcases ih [c] x h1 with h2 | h2
                · simp at h2
                  exact Or.inr (by simp [h2])
                · exact Or.inr (List.mem_cons_of_mem _ h2)
              · rcases List.mem_cons.mp h1 with h2 | h2
                · exact Or.inr (by simp [h2])
                · rcases ih [] x h2 with h3 | h3
                  · exact absurd h3 (List.not_mem_nil x)
                  · exact Or.inr (List.mem_cons_of_mem _ h3)


theorem isPunctRunChar_cases {x : Char} (h : isPunctRunChar x = true) :
    x = '.' ∨ x = '_' ∨ x = '-' ∨ x = ':' ∨ x = '/' ∨ x = '\\' ∨ x = '|' := by
  unfold isPunctRunChar at h
  simp only [Bool.or_eq_true, decide_eq_true_eq] at h
  tauto

theorem punct_not_alpha {x : Char} (h : isPunctRunChar x = true) :
    isAsciiAlphaQ x = false := by
  rcases isPunctRunChar_cases h with h1 | h1 | h1 | h1 | h1 | h1 | h1 <;>
    subst h1 <;> decide

theorem punct_ne_nl {x : Char} (h : isPunctRunChar x = true) : x ≠ '\n' := by
  rcases isPunctRunChar_cases h with h1 | h1 | h1 | h1 | h1 | h1 | h1 <;>
    subst h1 <;> decide

theorem punct_not_spacetab {x : Char} (h : isPunctRunChar x = true) :
    isSpaceTab x = false := by
  rcases isPunctRunChar_cases h with h1 | h1 | h1 | h1 | h1 | h1 | h1 <;>
    subst h1 <;> decide

theorem punct_ne_space {x : Char} (h : isPunctRunChar x = true) : x ≠ ' ' := by
  rcases isPunctRunChar_cases h with h1 | h1 | h1 | h1 | h1 | h1 | h1 <;>
    subst h1 <;> decide

theorem isSpaceTab_cases {x : Char} (h : isSpaceTab x = true) :
    x = ' ' ∨ x = '\t' := by
  unfold isSpaceTab at h
  simp only [Bool.or_eq_true, decide_eq_true_eq] at h
  exact h

theorem spacetab_ne_nl {x : Char} (h : isSpaceTab x = true) : x ≠ '\n' := by
  rcases isSpaceTab_cases h with h1 | h1 <;> subst h1 <;> decide

theorem alpha_ne_space {x : Char} (h : isAsciiAlphaQ x = true) : x ≠ ' ' := by
  intro he
  rw [he] at h
  exact absurd h (by decide)

theorem alpha_ne_tab {x : Char} (h : isAsciiAlphaQ x = true) : x ≠ '\t' := by
  intro he
  rw [he] at h
  exact absurd h (by decide)

theorem alpha_ne_nl {x : Char} (h : isAsciiAlphaQ x = true) : x ≠ '\n' := by
  intro he
  rw [he] at h
  exact absurd h (by decide)

theorem alpha_not_spacetab {x : Char} (h : isAsciiAlphaQ x = true) :
    isSpaceTab x = false := by
  by_cases hs : isSpaceTab x = true
  · rcases isSpaceTab_cases hs with h1 | h1
    · exact absurd h1 (alpha_ne_space h)
    · exact absurd h1 (alpha_ne_tab h)
  · exact bool_eq_false hs

theorem alpha_not_punct {x : Char} (h : isAsciiAlphaQ x = true) :
    isPunctRunChar x = false := by
  by_cases hp : isPunctRunChar x = true
  · rw [punct_not_alpha hp] at h
    exact absurd h Bool.false_ne_true
  · exact bool_eq_false hp

theorem toLowerQ_upper {c : Char}
    (h : (decide (0x41 ≤ c.toNat) && decide (c.toNat ≤ 0x5A)) = true) :
    toLowerQ c = Char.ofNat (c.toNat + 32) := by
  unfold toLowerQ
  rw [if_pos h]

theorem toLowerQ_lower_alpha {c : Char}
    (h : (decide (0x41 ≤ c.toNat) && decide (c.toNat ≤ 0x5A)) = true) :
    isAsciiAlphaQ (toLowerQ c) = true := by
  have hb := h
  simp only [Bool.and_eq_true, decide_eq_true_eq] at hb
  rw [toLowerQ_upper h]
  unfold isAsciiAlphaQ
  rw [charToNat_ofNat_of_lt (by omega)]
  simp only [Bool.or_eq_true, Bool.and_eq_true, decide_eq_true_eq]
  omega

theorem toLowerQ_idem (c : Char) : toLowerQ (toLowerQ c) = toLowerQ c := by
  by_cases h : (decide (0x41 ≤ c.toNat) && decide (c.toNat ≤ 0x5A)) = true
  · have hb := h
    simp only [Bool.and_eq_true, decide_eq_true_eq] at hb
    rw [toLowerQ_upper h]
    have hd : (Char.ofNat (c.toNat + 32)).toNat = c.toNat + 32 :=
      charToNat_ofNat_of_lt (by omega)
    unfold toLowerQ
    rw [if_neg (by
      simp only [hd, Bool.and_eq_true, decide_eq_true_eq, not_and]
      omega)]
    have hnone : cyrGreekLowerPairs.lookup (Char.ofNat (c.toNat + 32)) =
        none := by
      rw [List.lookup_eq_none_iff]
      intro p hp
      have hkey : 0x100 ≤ p.1.toNat := by
        revert hp
        have : ∀ q ∈ cyrGreekLowerPairs, 0x100 ≤ q.1.toNat := by decide
        exact this p
      rw [bne_iff_ne]
      intro he
      rw [← he, hd] at hkey
      omega
    rw [hnone]
    rfl
  · have h1 : toLowerQ c = (cyrGreekLowerPairs.lookup c).getD c := by
      unfold toLowerQ
      rw [if_neg h]
    cases hl : cyrGreekLowerPairs.lookup c with
    | none =>
        have hc : toLowerQ c = c := by rw [h1, hl]; rfl
        rw [hc, hc]
    | some v =>
        have hmem : (c, v) ∈ cyrGreekLowerPairs := by
          obtain ⟨l₁, l₂, hsplit, -⟩ := List.lookup_eq_some_iff.mp hl
          rw [hsplit]
          exact List.mem_append_right _ (List.mem_cons_self _ _)
        have hv : (¬(0x41 ≤ v.toNat ∧ v.toNat ≤ 0x5A)) ∧
            cyrGreekLowerPairs.lookup v = none := by
          have hall : ∀ q ∈ cyrGreekLowerPairs,
              (¬(0x41 ≤ q.2.toNat ∧ q.2.toNat ≤ 0x5A)) ∧
              cyrGreekLowerPairs.lookup q.2 = none := by decide
          exact hall (c, v) hmem
        have hcv : toLowerQ c = v := by rw [h1, hl]; rfl
        rw [hcv]
        unfold toLowerQ
        rw [if_neg (by
          simp only [Bool.and_eq_true, decide_eq_true_eq]
          exact hv.1), hv.2]
        rfl

theorem toLowerQ_punct (c : Char) :
    isPunctRunChar (toLowerQ c) = isPunctRunChar c := by
  by_cases h : (decide (0x41 ≤ c.toNat) && decide (c.toNat ≤ 0x5A)) = true
  · have hb := h
    simp only [Bool.and_eq_true, decide_eq_true_eq] at hb
    have hR : isAsciiAlphaQ c = true := by
      unfold isAsciiAlphaQ
      simp only [Bool.or_eq_true, Bool.and_eq_true, decide_eq_true_eq]
      omega
    rw [alpha_not_punct (toLowerQ_lower_alpha h), alpha_not_punct hR]
  · have h1 : toLowerQ c = (cyrGreekLowerPairs.lookup c).getD c := by
      unfold toLowerQ
      rw [if_neg h]
    cases hl : cyrGreekLowerPairs.lookup c with
    | none =>
        have hc : toLowerQ c = c := by rw [h1, hl]; rfl
        rw [hc]
    | some v =>
        have hmem : (c, v) ∈ cyrGreekLowerPairs := by
          obtain ⟨l₁, l₂, hsplit, -⟩ := List.lookup_eq_some_iff.mp hl
          rw [hsplit]
          exact List.mem_append_right _ (List.mem_cons_self _ _)
        have hp : isPunctRunChar c = false ∧ isPunctRunChar v = false := by
          have hall : ∀ q ∈ cyrGreekLowerPairs,
              isPunctRunChar q.1 = false ∧ isPunctRunChar q.2 = false := by
            decide
          exact hall (c, v) hmem
        have hcv : toLowerQ c = v := by rw [h1, hl]; rfl
        rw [hcv, hp.1, hp.2]

theorem noPairB_map {cls : Char → Bool} {f : Char → Char}
    (hf : ∀ c, cls (f c) = cls c) :
    ∀ (l : List Char), noPairB cls l = true → noPairB cls (l.map f) = true
  | [] => fun _ => rfl
  | [a] => fun _ => rfl
  | a :: b :: m => fun h => by
      rw [List.map_cons, List.map_cons]
      unfold noPairB at h ⊢
      rw [Bool.and_eq_true] at h ⊢
      refine ⟨by rw [hf, hf]; exact h.1, ?_⟩
      have hrec := noPairB_map hf (b :: m) h.2
      rw [List.map_cons] at hrec
      exact hrec


theorem normalizeTail_fix (Y : List Char) :
    compactWhitespace (collapseRepeats (lowerList (collapsePunctRuns
      (compactWhitespace (collapseRepeats (lowerList (collapsePunctRuns Y)))))))
    = compactWhitespace (collapseRepeats (lowerList (collapsePunctRuns Y))) := by
  set P := collapsePunctRuns Y with hP
  set L := lowerList P with hL
  set R := collapseRepeats L with hR
  rw [show compactWhitespace R =
    trimList (collapseNewlineRuns (collapseSpaceTabRuns R)) from rfl]
  set S := collapseSpaceTabRuns R with hS
  set NL := collapseNewlineRuns S with hNL
  set Nd := trimList NL with hNd
  have hPP : noPairB isPunctRunChar P = true := by
    rw [hP]
    exact collapseClassAux_noPair isPunctRunChar Y []
  have hPL : noPairB isPunctRunChar L = true := by
    rw [hL]
    exact noPairB_map toLowerQ_punct P hPP
  have hSout : noPairB isSpaceTab S = true := by
    rw [hS]
    exact collapseClassAux_noPair isSpaceTab R []
  have hNLout : noTripleNl NL = true := by
    rw [hNL]
    exact collapseNewlineAux_noTriple S [] (by simp)
  have hRout : noQuadRun R = true := by
    rw [hR]
    exact collapseRepeatsAux_noQuad L [] ' ' (by simp)
  have htrans_nl : ∀ {ks : List Char}, (∀ x ∈ ks, x ≠ '\n') →
      ks <:+: NL → ks <:+: S := by
    intro ks hks h
    rw [hNL] at h
    exact collapseNewlineAux_infix_transfer S [] ks hks (by simp) h
  have htrans_st : ∀ {ks : List Char},
      (∀ x ∈ ks, isSpaceTab x = false ∧ x ≠ ' ') →
      ks <:+: S → ks <:+: R := by
    intro ks hks h
    rw [hS] at h
    exact collapseClassAux_infix_transfer isSpaceTab R [] ks hks (by simp) h
  have htrans_rep : ∀ {ks : List Char},
      (∀ x ∈ ks, isAsciiAlphaQ x = false) →
      ks <:+: R → ks <:+: L := by
    intro ks hks h
    rw [hR] at h
    exact collapseRepeatsAux_infix_transfer L [] ks hks (by simp) h
  have hNoPunct : noPairB isPunctRunChar Nd = true := by
    refine noPairB_of_no_pair_sub Nd ?_
    intro a b ha hb hinf
    have hmem : ∀ x ∈ ([a, b] : List Char), isPunctRunChar x = true := by
      intro x hx
      rcases List.mem_cons.mp hx with h1 | h1
      · rw [h1]; exact ha
      · simp at h1; rw [h1]; exact hb
    have h1 : [a, b] <:+: NL := by
      rw [hNd] at hinf
      exact hinf.trans (trimList_within NL)
    have h2 := htrans_nl (fun x hx => punct_ne_nl (hmem x hx)) h1
    have h3 := htrans_st
      (fun x hx => ⟨punct_not_spacetab (hmem x hx), punct_ne_space (hmem x hx)⟩)
      h2
    have h4 := htrans_rep (fun x hx => punct_not_alpha (hmem x hx)) h3
    exact noPairB_no_pair_sub hPL ha hb h4
  have hPfix : collapsePunctRuns Nd = Nd :=
    collapseClass_fix isPunctRunChar Nd hNoPunct
  have hlowN : ∀ x ∈ Nd, toLowerQ x = x := by
    intro x hx
    have hx1 : x ∈ NL := by
      rw [hNd] at hx
      exact trimList_mem hx
    rw [hNL] at hx1
    rcases collapseNewlineAux_mem S [] x hx1 with h1 | h1 | h1
    · exact absurd h1 (List.not_mem_nil x)
    · rw [hS] at h1
      rcases collapseClassAux_mem isSpaceTab R [] x h1 with h2 | h2 | h2
      · exact absurd h2 (List.not_mem_nil x)
      · rw [hR] at h2
        rcases collapseRepeatsAux_mem L [] x h2 with h3 | h3
        · exact absurd h3 (List.not_mem_nil x)
        · rw [hL] at h3
          obtain ⟨y, -, hy⟩ := List.mem_map.mp h3
          rw [← hy]
          exact toLowerQ_idem y
      · rw [h2]; decide
    · rw [h1]; decide
  have hLfix : lowerList Nd = Nd := by
    rw [show lowerList Nd = Nd.map toLowerQ from rfl]
    rw [List.map_congr_left (fun a ha => hlowN a ha)]
    exact List.map_id Nd
  have hNoQuad : noQuadRun Nd = true := by
    refine noQuadRun_of_no_quad_sub Nd ?_
    intro cq hcq hinf
    have hmem : ∀ x ∈ ([cq, cq, cq, cq] : List Char),
        isAsciiAlphaQ x = true := by
      intro x hx
      simp at hx
      rw [hx]
      exact hcq
    have h1 : [cq, cq, cq, cq] <:+: NL := by
      rw [hNd] at hinf
      exact hinf.trans (trimList_within NL)
    have h2 := htrans_nl (fun x hx => alpha_ne_nl (hmem x hx)) h1
    have h3 := htrans_st
      (fun x hx => ⟨alpha_not_spacetab (hmem x hx), alpha_ne_space (hmem x hx)⟩)
      h2
    exact noQuadRun_no_quad_sub hRout hcq h3
  have hRfix : collapseRepeats Nd = Nd := by
    rw [show collapseRepeats Nd = collapseRepeatsAux Nd [] from rfl]
    rw [collapseRepeatsAux_fix Nd [] ' ' (by simp)
      (fun hne => absurd rfl hne) (by simpa using hNoQuad)]
    rfl
  have hNoST : noPairB isSpaceTab Nd = true := by
    refine noPairB_of_no_pair_sub Nd ?_
    intro a b ha hb hinf
    have hmem : ∀ x ∈ ([a, b] : List Char), isSpaceTab x = true := by
      intro x hx
      rcases List.mem_cons.mp hx with h1 | h1
      · rw [h1]; exact ha
      · simp at h1; rw [h1]; exact hb
    have h1 : [a, b] <:+: NL := by
      rw [hNd] at hinf
      exact hinf.trans (trimList_within NL)
    have h2 := htrans_nl (fun x hx => spacetab_ne_nl (hmem x hx)) h1
    exact noPairB_no_pair_sub hSout ha hb h2
  have hSfix : collapseSpaceTabRuns Nd = Nd :=
    collapseClass_fix isSpaceTab Nd hNoST
  have hNoNL : noTripleNl Nd = true := by
    refine noTripleNl_of_no_triple_sub Nd ?_
    intro hinf
    have h1 : ['\n', '\n', '\n'] <:+: NL := by
      rw [hNd] at hinf
      exact hinf.trans (trimList_within NL)
    exact noTripleNl_no_triple_sub hNLout h1
  have hNfix : collapseNewlineRuns Nd = Nd := by
    rw [show collapseNewlineRuns Nd = collapseNewlineAux Nd [] from rfl]
    rw [collapseNewlineAux_fix Nd [] (by simp) (by simpa using hNoNL)]
    rfl
  have hTfix : trimList Nd = Nd := by
    rw [hNd]
    exact trimList_idem NL
  rw [hPfix, hLfix, hRfix]
  rw [show compactWhitespace Nd =
    trimList (collapseNewlineRuns (collapseSpaceTabRuns Nd)) from rfl]
  rw [hSfix, hNfix, hTfix]


theorem normalizeForSecurity_shape (T : String) :
    ∃ Y : List Char, (normalizeForSecurity T).normalizedText.data =
      compactWhitespace (collapseRepeats (lowerList (collapsePunctRuns Y))) := by
  simp only [normalizeForSecurity]
  exact ⟨_, rfl⟩

theorem normalizeForSecurity_text_of_clean (s : String)
    (ha : s.data.any isInvisibleQ = false)
    (hb : decodeHtmlEntities s.data = s.data)
    (hc : confusableReplacedCount s.data = 0) :
    (normalizeForSecurity s).normalizedText =
      ⟨compactWhitespace (collapseRepeats (lowerList
        (collapsePunctRuns s.data)))⟩ := by
  unfold normalizeForSecurity
  simp only [nfkcQ, ha, Bool.false_eq_true, if_false, hb, hc,
    gt_iff_lt, Nat.lt_irrefl, if_neg]


/-- C5 counterexample — the normalizer is not idempotent: on the input
`"&amp;amp;"` the first pass decodes the entity once and leaves
`"&amp;"`, and a second pass decodes that again to `"&"`, so normalizing
the already-normalized text changes it. -/
theorem normalizeForSecurity_not_idempotent :
    (normalizeForSecurity
      (normalizeForSecurity "&amp;amp;").normalizedText).normalizedText ≠
    (normalizeForSecurity "&amp;amp;").normalizedText := by decide

/-- C5 (amended) — conditional idempotence of the obfuscation
normalizer: whenever the first pass leaves a normalized text that is
all-ASCII, has no invisible characters, is unchanged by a further
entity-decoding pass and contains no confusable-table characters,
normalizing it again returns it unchanged.  The ASCII hypothesis pins
the text to the repertoire on which the embedded Unicode primitives
(`nfkcQ`, `toLowerQ`, the entity decoders) coincide with the JavaScript
ones — entity decoding can otherwise introduce NFKC-unstable characters
(`"&#xFB01;"` normalizes to the ligature U+FB01, which a second
JavaScript pass folds to `fi`) — and the remaining three hypotheses
exclude residual decodable content.  The punctuation-run, lowercase,
repeated-character and whitespace stages are proved to fix every
first-pass output unconditionally. -/
theorem normalizeForSecurity_conditional_idempotent (T : String)
    (h0 : (normalizeForSecurity T).normalizedText.data.all isAsciiQ = true)
    (h1 : (normalizeForSecurity T).normalizedText.data.any isInvisibleQ
      = false)
    (h2 : decodeHtmlEntities (normalizeForSecurity T).normalizedText.data =
      (normalizeForSecurity T).normalizedText.data)
    (h3 : confusableReplacedCount
      (normalizeForSecurity T).normalizedText.data = 0) :
    (normalizeForSecurity
      (normalizeForSecurity T).normalizedText).normalizedText =
    (normalizeForSecurity T).normalizedText := by
  obtain ⟨Y, hY⟩ := normalizeForSecurity_shape T
  rw [normalizeForSecurity_text_of_clean _ h1 h2 h3, hY, normalizeTail_fix Y,
    ← hY]

/-- Witness for C5 at a concrete input whose normalized text is
all-ASCII and free of entities, invisibles and confusables. -/
theorem normalizeForSecurity_conditional_idempotent_witness :
    ((normalizeForSecurity "A..b  &").normalizedText.data.all isAsciiQ
      = true) ∧
    ((normalizeForSecurity "A..b  &").normalizedText.data.any isInvisibleQ
      = false) ∧
    (normalizeForSecurity
      (normalizeForSecurity "A..b  &").normalizedText).normalizedText =
    (normalizeForSecurity "A..b  &").normalizedText :=
  ⟨by decide, by decide, normalizeForSecurity_conditional_idempotent "A..b  &"
    (by decide) (by decide) (by decide) (by decide)⟩

end ClawRubber
